import Mathlib

set_option linter.unusedSectionVars false
set_option linter.unusedVariables false

/-!
A shallow embedding of the `py-heap` repository's `indexed_heap.py`
(`class IndexedHeap` and the module-level generator `sort`), together with
proofs about the embedded operations.

Modelling conventions:

* The heap array `self._heap_items` (a Python list of `(key, value)` tuples)
  is a `List (K × V)`; list indexing follows Python semantics, so an index is
  resolved with `py_index`, which maps a negative index `i` to `n + i`.
* The dict `self._handle_to_position_mapping` is an association list
  `List (K × Int)` with Python dict semantics: assignment replaces the value
  in place when the key is present and appends otherwise, deletion removes
  the key's entry.  Stored positions are `Int` because `_swap` stores the raw
  second index, which is the literal `-1` during `__delitem__`/`pop_first`
  (the entry is deleted again before those operations return).
* The ordering key type is fixed to `ℤ` (Python compares keys with `<=`/`>=`;
  every claim uses integer ordering keys).
* `_heapify_down` and `_heapify_up` recurse/loop; they are embedded as
  structural recursion on an explicit fuel argument, with fuel
  `length + 1` (respectively `index + 1`), which is proved sufficient
  (`heapify_down_fuel_sufficient` / `heapify_up_fuel_sufficient`).
* `__getitem__`/`__delitem__` raise `KeyError` exactly when the initial dict
  lookup fails, before any state is touched; they are embedded as
  `Option`-returning functions where `none` is the `KeyError` outcome.
* `pop_first` returns the Python sentinel `(None, None)` on an empty heap;
  the embedded `pop_first` returns `none` for the sentinel and `some (k, v)`
  for a real item.  The generator `sort` tests `k is not None` on the popped
  pair, which cannot tell the sentinel from a stored key `None`; `sort` is
  therefore embedded over heaps whose handle type is `Option K'`, where
  `none` is Python's `None`.
-/

namespace PyHeap

/-- Python dict lookup `d[k]` on the association-list model: the value of the
unique entry for `k`, or `none` when `k` is absent (Python raises `KeyError`). -/
def dlookup {K : Type} [DecidableEq K] {A : Type} : List (K × A) → K → Option A
  | [], _ => none
  | (k', v) :: rest, k => if k' = k then some v else dlookup rest k

/-- Python dict assignment `d[k] = v`: replace the entry in place when `k` is
present, append a new entry otherwise. -/
def dinsert {K : Type} [DecidableEq K] {A : Type} : List (K × A) → K → A → List (K × A)
  | [], k, v => [(k, v)]
  | (k', v') :: rest, k, v =>
    if k' = k then (k, v) :: rest else (k', v') :: dinsert rest k v

/-- Python dict deletion `del d[k]`: remove the entry for `k`.
(The source only deletes keys that are present.) -/
def ddelete {K : Type} [DecidableEq K] {A : Type} : List (K × A) → K → List (K × A)
  | [], _ => []
  | (k', v') :: rest, k => if k' = k then rest else (k', v') :: ddelete rest k

/-- Python list indexing: a negative index `i` addresses slot `n + i`. -/
def py_index (n : Nat) (i : Int) : Nat :=
  if i < 0 then (n + i).toNat else i.toNat

/-- Total list access used for Python's `l[i]` at a (resolved) index.
All source-level accesses are in bounds. -/
def nthd {A : Type} [Inhabited A] : List A → Nat → A
  | [], _ => default
  | a :: _, 0 => a
  | _ :: l, n + 1 => nthd l n

/--
The state of a `py-heap` `IndexedHeap` object:
the ordering configuration `_key`/`_reverse` captured by `__init__`, the heap
array `_heap_items` and the dict `_handle_to_position_mapping`.
-/
structure IndexedHeap (K V : Type) where
  key : V → ℤ
  reverse : Bool
  heap_items : List (K × V)
  handle_to_position_mapping : List (K × Int)

namespace IndexedHeap

variable {K V : Type} [DecidableEq K] [Inhabited K] [Inhabited V]

instance : Inhabited (IndexedHeap K V) :=
  ⟨⟨fun _ => 0, false, [], []⟩⟩

/-- `__len__`: the number of stored elements. -/
def size (h : IndexedHeap K V) : Nat :=
  h.heap_items.length

/-- `_get_key_by_index`: ordering key of the element at slot `index`. -/
def get_key_by_index (h : IndexedHeap K V) (index : Nat) : ℤ :=
  h.key (nthd h.heap_items index).2

/-- `_are_keys_in_order`: `first_key >= second_key` for a max-heap
(`reverse = true`), `first_key <= second_key` for a min-heap. -/
def are_keys_in_order (h : IndexedHeap K V) (first_key second_key : ℤ) : Bool :=
  if h.reverse then decide (second_key ≤ first_key) else decide (first_key ≤ second_key)

/-- `_are_items_in_order`: compare the elements at two slots. -/
def are_items_in_order (h : IndexedHeap K V) (first_index second_index : Nat) : Bool :=
  are_keys_in_order h (get_key_by_index h first_index) (get_key_by_index h second_index)

/-- `_swap`: exchange the elements at two (Python, possibly negative) indices
and record the raw indices in the handle-to-position dict, in source order
(`mapping[first_item[0]] = second_index` before
`mapping[second_item[0]] = first_index`). -/
def swap (h : IndexedHeap K V) (first_index second_index : Int) : IndexedHeap K V :=
  let n := h.heap_items.length
  let fi := py_index n first_index
  let si := py_index n second_index
  let first_item := nthd h.heap_items fi
  let second_item := nthd h.heap_items si
  { h with
    handle_to_position_mapping :=
      dinsert (dinsert h.handle_to_position_mapping first_item.1 second_index)
        second_item.1 first_index
    heap_items := (h.heap_items.set fi second_item).set si first_item }

/-- The slot `_heapify_down` decides to swap with: the better-ordered child,
computed exactly as the source's two sequential conditional assignments
(`swap_position := left_child if ...`, then `right_child if ...`). -/
def swap_position (h : IndexedHeap K V) (index : Nat) : Nat :=
  let left_child := index * 2 + 1
  let right_child := index * 2 + 2
  let sp :=
    if left_child < h.heap_items.length ∧ are_items_in_order h left_child index = true
    then left_child else index
  if right_child < h.heap_items.length ∧ are_items_in_order h right_child sp = true
  then right_child else sp

/-- `_heapify_down`, with explicit fuel for the recursion.  The recursion
advances to a strictly larger slot bounded by the array length, so any fuel
exceeding `length - index` is enough (`heapify_down_fuel_sufficient`). -/
def heapify_down_fuel : Nat → IndexedHeap K V → Nat → IndexedHeap K V
  | 0, h, _ => h
  | fuel + 1, h, index =>
    if swap_position h index ≠ index then
      heapify_down_fuel fuel (swap h index (swap_position h index)) (swap_position h index)
    else h

/-- `_heapify_down`: sift the element at `index` down until heap order holds
below it. -/
def heapify_down (h : IndexedHeap K V) (index : Nat) : IndexedHeap K V :=
  heapify_down_fuel (h.heap_items.length + 1) h index

/-- `_heapify_up`, with explicit fuel for the loop.  Each iteration moves to
the parent slot `(item_index - 1) / 2 < item_index`, so any fuel exceeding
`item_index` is enough (`heapify_up_fuel_sufficient`). -/
def heapify_up_fuel : Nat → IndexedHeap K V → Nat → IndexedHeap K V
  | 0, h, _ => h
  | fuel + 1, h, item_index =>
    if 0 < item_index ∧ are_items_in_order h item_index ((item_index - 1) / 2) = true then
      heapify_up_fuel fuel
        (swap h (item_index : Int) (((item_index - 1) / 2 : Nat) : Int))
        ((item_index - 1) / 2)
    else h

/-- `_heapify_up`: sift the element at `item_index` up until heap order holds
above it. -/
def heapify_up (h : IndexedHeap K V) (item_index : Nat) : IndexedHeap K V :=
  heapify_up_fuel (item_index + 1) h item_index

/-- `_create_heap`: Floyd's bottom-up construction, sifting every internal
slot down from the last parent to the root. -/
def create_heap (h : IndexedHeap K V) : IndexedHeap K V :=
  (List.range (h.heap_items.length / 2)).reverse.foldl
    (fun acc it => heapify_down acc it) h

/-- The dict comprehension in `__init__` building
`_handle_to_position_mapping` from the initial items. -/
def build_mapping (items : List (K × V)) : List (K × Int) :=
  items.enum.foldl (fun m p => dinsert m p.2.1 (p.1 : Int)) []

/-- `__init__`: build the heap array from the initial dict items, record each
key's initial slot, then restore heap order bottom-up. -/
def of_items (items_to_add : List (K × V)) (key : V → ℤ) (reverse : Bool) :
    IndexedHeap K V :=
  create_heap
    { key := key
      reverse := reverse
      heap_items := items_to_add
      handle_to_position_mapping := build_mapping items_to_add }

/-- `__contains__`: O(1) dict membership test. -/
def contains_key (h : IndexedHeap K V) (k : K) : Bool :=
  (dlookup h.handle_to_position_mapping k).isSome

/-- `__getitem__`: value stored for `k`; `none` models the `KeyError`
raised by the dict lookup when `k` is absent (before anything is touched). -/
def get_item (h : IndexedHeap K V) (k : K) : Option V :=
  match dlookup h.handle_to_position_mapping k with
  | none => none
  | some index => some (nthd h.heap_items (py_index h.heap_items.length index)).2

/-- `_modify`: replace the value stored for a present key, then restore order
with a single sift whose direction comes from one comparison of the old and
new ordering keys.  (`_modify` is only called on present keys; the `none`
branch is unreachable.) -/
def modify (h : IndexedHeap K V) (item_handle : K) (new_value : V) : IndexedHeap K V :=
  match dlookup h.handle_to_position_mapping item_handle with
  | none => h
  | some idx =>
    let index := py_index h.heap_items.length idx
    let old_key := h.key (nthd h.heap_items index).2
    let new_key := h.key new_value
    let h1 := { h with heap_items := h.heap_items.set index (item_handle, new_value) }
    if are_keys_in_order h old_key new_key then heapify_down h1 index
    else heapify_up h1 index

/-- `_add_item`: append a new element at the last slot, record its position,
and sift it up. -/
def add_item (h : IndexedHeap K V) (k : K) (new_value : V) : IndexedHeap K V :=
  let heap_items := h.heap_items ++ [(k, new_value)]
  let h1 := { h with
    heap_items := heap_items
    handle_to_position_mapping :=
      dinsert h.handle_to_position_mapping k ((heap_items.length - 1 : Nat) : Int) }
  heapify_up h1 (heap_items.length - 1)

/-- `__setitem__`: upsert — modify a present key, insert an absent one. -/
def set_item (h : IndexedHeap K V) (k : K) (new_value : V) : IndexedHeap K V :=
  if contains_key h k then modify h k new_value else add_item h k new_value

/-- `update`: apply the upsert to every pair of the input dict, in order. -/
def update (h : IndexedHeap K V) (new_items : List (K × V)) : IndexedHeap K V :=
  new_items.foldl
    (fun acc p =>
      if contains_key acc p.1 then modify acc p.1 p.2 else add_item acc p.1 p.2) h

/-- `__delitem__`: `none` models the `KeyError` raised by the initial dict
lookup on an absent key (nothing has been mutated at that point).  Otherwise:
swap the target slot with the last slot, delete the key's dict entry, drop the
last array slot, and sift down from the vacated slot. -/
def del_item (h : IndexedHeap K V) (k : K) : Option (IndexedHeap K V) :=
  match dlookup h.handle_to_position_mapping k with
  | none => none
  | some item_index =>
    let h1 := swap h item_index (-1)
    let h2 := { h1 with
      handle_to_position_mapping := ddelete h1.handle_to_position_mapping k
      heap_items := h1.heap_items.dropLast }
    some (heapify_down h2 (py_index h.heap_items.length item_index))

/-- `pop_first`: the sentinel `(None, None)` — embedded as `none` — on an
empty heap; otherwise capture the root, swap it with the last slot, delete its
dict entry, drop the last array slot, sift down from the root, and return the
captured pair. -/
def pop_first (h : IndexedHeap K V) : Option (K × V) × IndexedHeap K V :=
  if h.heap_items.isEmpty then (none, h)
  else
    let top_item := nthd h.heap_items 0
    let h1 := swap h 0 (-1)
    let h2 := { h1 with
      handle_to_position_mapping :=
        ddelete h1.handle_to_position_mapping
          (nthd h1.heap_items (h1.heap_items.length - 1)).1
      heap_items := h1.heap_items.dropLast }
    (some top_item, heapify_down h2 0)

/-- `get_items`: the heap array itself, in internal heap order. -/
def get_items (h : IndexedHeap K V) : List (K × V) :=
  h.heap_items

end IndexedHeap

open IndexedHeap

/-- The loop body of the module-level generator `sort`, with fuel: pop the
first item; while the popped `k` `is not None`, yield `(k, v)` and pop again.
A stored handle `none` (Python `None`) stops the loop exactly like the
empty-heap sentinel.  Returns the yielded sequence and the drained heap. -/
def sort_fuel {K' V : Type} [DecidableEq K'] [Inhabited K'] [Inhabited V] :
    Nat → IndexedHeap (Option K') V → List (Option K' × V) × IndexedHeap (Option K') V
  | 0, h => ([], h)
  | fuel + 1, h =>
    match pop_first h with
    | (none, h') => ([], h')
    | (some (k, v), h') =>
      if k.isSome then
        let rest := sort_fuel fuel h'
        ((k, v) :: rest.1, rest.2)
      else ([], h')

/-- `sort`: drain the heap by repeated `pop_first`, yielding items in pop
order.  Each non-sentinel pop shrinks the heap by one, so `length + 1` fuel
runs the loop to its Python termination point. -/
def sort {K' V : Type} [DecidableEq K'] [Inhabited K'] [Inhabited V]
    (heap : IndexedHeap (Option K') V) : List (Option K' × V) × IndexedHeap (Option K') V :=
  sort_fuel (heap.heap_items.length + 1) heap

namespace IndexedHeap

variable {K V : Type} [DecidableEq K] [Inhabited K] [Inhabited V]

/-- Heap order restricted to the parent-child pairs whose parent slot is at
least `k`: spec §3 invariant 3 is `heap_below h 0`. -/
def heap_below (h : IndexedHeap K V) (k : Nat) : Prop :=
  ∀ c, c < h.heap_items.length → 0 < c → k ≤ (c - 1) / 2 →
    are_keys_in_order h (get_key_by_index h ((c - 1) / 2)) (get_key_by_index h c) = true

instance (h : IndexedHeap K V) (k : Nat) : Decidable (heap_below h k) := by
  unfold heap_below; infer_instance

/-- The heap-order invariant (spec §3, invariant 3): every non-root slot is in
order with its parent. -/
def HeapOrdered (h : IndexedHeap K V) : Prop :=
  heap_below h 0

instance (h : IndexedHeap K V) : Decidable (HeapOrdered h) := by
  unfold HeapOrdered; infer_instance

/-- Precondition of `_heapify_down j`: all parent-child pairs with parent slot
at least `k` are in order except the pairs from `j` to its children, and `j`'s
children are in order with `j`'s own parent (when that parent is at least `k`,
in particular always when `k = 0` and `j` is not the root). -/
def almost_below (h : IndexedHeap K V) (k j : Nat) : Prop :=
  (∀ c, c < h.heap_items.length → 0 < c → k ≤ (c - 1) / 2 → (c - 1) / 2 ≠ j →
    are_keys_in_order h (get_key_by_index h ((c - 1) / 2)) (get_key_by_index h c) = true) ∧
  (0 < j → k ≤ (j - 1) / 2 →
    ∀ c, c < h.heap_items.length → 0 < c → (c - 1) / 2 = j →
      are_keys_in_order h (get_key_by_index h ((j - 1) / 2)) (get_key_by_index h c) = true)

/-- Precondition of `_heapify_up j`: all parent-child pairs are in order
except the pair from `j`'s parent down to `j`, and `j`'s children are in order
with `j`'s parent. -/
def almost_above (h : IndexedHeap K V) (j : Nat) : Prop :=
  (∀ c, c < h.heap_items.length → 0 < c → c ≠ j →
    are_keys_in_order h (get_key_by_index h ((c - 1) / 2)) (get_key_by_index h c) = true) ∧
  (0 < j →
    ∀ c, c < h.heap_items.length → 0 < c → (c - 1) / 2 = j →
      are_keys_in_order h (get_key_by_index h ((j - 1) / 2)) (get_key_by_index h c) = true)

/-- Well-formedness of the dual structure (spec §3, invariants 1, 2 and 4):
every dict entry points at the in-range slot holding its key, every slot's key
is mapped to that slot, dict keys are unique, and the dict and the array have
the same size. -/
def WF (h : IndexedHeap K V) : Prop :=
  (∀ e ∈ h.handle_to_position_mapping,
    0 ≤ e.2 ∧ e.2.toNat < h.heap_items.length ∧
      (nthd h.heap_items e.2.toNat).1 = e.1) ∧
  (∀ j, j < h.heap_items.length →
    dlookup h.handle_to_position_mapping (nthd h.heap_items j).1 = some (j : Int)) ∧
  ((h.handle_to_position_mapping.map Prod.fst).Nodup) ∧
  h.handle_to_position_mapping.length = h.heap_items.length

instance (h : IndexedHeap K V) : Decidable (WF h) := by
  unfold WF; infer_instance

/-- Heaps reachable by the public interface: construction from a dict (whose
keys are unique by the nature of a dict), subscript assignment (`set`),
`update`, successful `del`, and `pop_first`. -/
inductive Reachable : IndexedHeap K V → Prop
  | init (items : List (K × V)) (key : V → ℤ) (reverse : Bool)
      (hnd : (items.map Prod.fst).Nodup) : Reachable (of_items items key reverse)
  | set (h : IndexedHeap K V) (k : K) (v : V) :
      Reachable h → Reachable (set_item h k v)
  | upd (h : IndexedHeap K V) (ps : List (K × V)) :
      Reachable h → Reachable (update h ps)
  | del (h : IndexedHeap K V) (k : K) (h' : IndexedHeap K V) :
      Reachable h → del_item h k = some h' → Reachable h'
  | pop (h : IndexedHeap K V) : Reachable h → Reachable (pop_first h).2

end IndexedHeap

open IndexedHeap in
/-- The min-heap `IndexedHeap({1: 1, 2: 9, 3: 2, 4: 10, 5: 11, 6: 3})`
(already heap-ordered, so construction leaves the array unchanged). -/
def c1_heap : IndexedHeap ℤ ℤ :=
  of_items [(1, 1), (2, 9), (3, 2), (4, 10), (5, 11), (6, 3)] (fun v => v) false

open IndexedHeap in
/-- The spec §8 fixture `IndexedHeap({1: 4, 2: 2, 3: 3, 4: 1, 5: 5})`. -/
def example_heap : IndexedHeap ℤ ℤ :=
  of_items [(1, 4), (2, 2), (3, 3), (4, 1), (5, 5)] (fun v => v) false

open IndexedHeap in
/-- A min-heap holding an element whose external key is Python `None` at the
root, next to an ordinary element. -/
def c9_heap : IndexedHeap (Option ℤ) ℤ :=
  of_items [(none, 0), (some 1, 5)] (fun v => v) false

/-! ### Basic facts about the list and dict models -/

section ListFacts

variable {A : Type} [Inhabited A]

theorem nthd_eq_getElem (l : List A) (i : Nat) (hi : i < l.length) :
    nthd l i = l[i] := by
  induction l generalizing i with
  | nil => simp at hi
  | cons a l ih =>
    cases i with
    | zero => rfl
    | succ i => simpa [nthd] using ih i (by simpa using hi)

theorem nthd_mem (l : List A) (i : Nat) (hi : i < l.length) : nthd l i ∈ l := by
  rw [nthd_eq_getElem l i hi]; exact List.getElem_mem hi

theorem mem_iff_nthd (l : List A) (x : A) :
    x ∈ l ↔ ∃ i, i < l.length ∧ nthd l i = x := by
  constructor
  · intro hx
    rcases List.getElem_of_mem hx with ⟨i, hi, heq⟩
    exact ⟨i, hi, by rw [nthd_eq_getElem l i hi, heq]⟩
  · rintro ⟨i, hi, rfl⟩
    exact nthd_mem l i hi

theorem nthd_set_self (l : List A) (i : Nat) (a : A) (hi : i < l.length) :
    nthd (l.set i a) i = a := by
  induction l generalizing i with
  | nil => simp at hi
  | cons b l ih =>
    cases i with
    | zero => rfl
    | succ i => simpa [List.set, nthd] using ih i (by simpa using hi)

theorem nthd_set_ne (l : List A) (i j : Nat) (a : A) (hij : i ≠ j) :
    nthd (l.set i a) j = nthd l j := by
  induction l generalizing i j with
  | nil => cases i <;> rfl
  | cons b l ih =>
    cases i with
    | zero => cases j with
      | zero => exact absurd rfl hij
      | succ j => rfl
    | succ i =>
      cases j with
      | zero => rfl
      | succ j => simpa [List.set, nthd] using ih i j (by omega)

theorem set_nthd_self (l : List A) (i : Nat) (hi : i < l.length) :
    l.set i (nthd l i) = l := by
  induction l generalizing i with
  | nil => rfl
  | cons b l ih =>
    cases i with
    | zero => rfl
    | succ i => simpa [List.set, nthd] using ih i (by simpa using hi)

theorem nthd_append_left (l l' : List A) (i : Nat) (hi : i < l.length) :
    nthd (l ++ l') i = nthd l i := by
  induction l generalizing i with
  | nil => simp at hi
  | cons b l ih =>
    cases i with
    | zero => rfl
    | succ i => simpa [nthd] using ih i (by simpa using hi)

theorem nthd_append_last (l : List A) (x : A) : nthd (l ++ [x]) l.length = x := by
  induction l with
  | nil => rfl
  | cons b l ih => simpa [nthd] using ih

theorem nthd_dropLast (l : List A) (i : Nat) (hi : i < l.length - 1) :
    nthd l.dropLast i = nthd l i := by
  induction l generalizing i with
  | nil => rfl
  | cons b l ih =>
    cases l with
    | nil => simp at hi
    | cons c l =>
      cases i with
      | zero => rfl
      | succ i => simpa [List.dropLast, nthd] using ih i (by simp at hi ⊢; omega)

theorem cons_set_perm (l : List A) (m : Nat) (a : A) (hm : m < l.length) :
    (nthd l m :: l.set m a).Perm (a :: l) := by
  induction l generalizing m with
  | nil => simp at hm
  | cons c t ih =>
    cases m with
    | zero => exact List.Perm.swap a c t
    | succ m =>
      exact (List.Perm.swap c (nthd t m) (t.set m a)).trans
        (((ih m (by simpa using hm)).cons c).trans (List.Perm.swap a c t))

theorem set_set_perm (l : List A) (i j : Nat) (hi : i < l.length) (hj : j < l.length) :
    ((l.set i (nthd l j)).set j (nthd l i)).Perm l := by
  induction l generalizing i j with
  | nil => simp at hi
  | cons b l ih =>
    cases i with
    | zero =>
      cases j with
      | zero => simp [nthd]
      | succ j =>
        have : (((b :: l).set 0 (nthd (b :: l) (j + 1))).set (j + 1) (nthd (b :: l) 0))
            = nthd l j :: l.set j b := rfl
        rw [this]
        exact cons_set_perm l j b (by simpa using hj)
    | succ i =>
      cases j with
      | zero =>
        have : (((b :: l).set (i + 1) (nthd (b :: l) 0)).set 0 (nthd (b :: l) (i + 1)))
            = nthd l i :: l.set i b := rfl
        rw [this]
        exact cons_set_perm l i b (by simpa using hi)
      | succ j =>
        simpa [List.set, nthd] using
          (ih i j (by simpa using hi) (by simpa using hj)).cons b

end ListFacts

section DictFacts

variable {K : Type} [DecidableEq K] {A : Type}

theorem dlookup_dinsert_self (m : List (K × A)) (k : K) (v : A) :
    dlookup (dinsert m k v) k = some v := by
  induction m with
  | nil => simp [dinsert, dlookup]
  | cons e m ih =>
    by_cases hk : e.1 = k <;> simp [dinsert, dlookup, hk, ih]

theorem dlookup_dinsert_ne (m : List (K × A)) (k k' : K) (v : A) (hne : k' ≠ k) :
    dlookup (dinsert m k v) k' = dlookup m k' := by
  induction m with
  | nil => simp [dinsert, dlookup, Ne.symm hne]
  | cons e m ih =>
    by_cases hk : e.1 = k
    · simp [dinsert, hk, dlookup, Ne.symm hne]
    · simp only [dinsert, if_neg hk, dlookup, ih]

theorem mem_dinsert (m : List (K × A)) (k : K) (v : A) (e : K × A)
    (hnd : (m.map Prod.fst).Nodup) (he : e ∈ dinsert m k v) :
    e = (k, v) ∨ (e ∈ m ∧ e.1 ≠ k) := by
  induction m with
  | nil => simpa [dinsert] using he
  | cons e' m ih =>
    have hnd' : (m.map Prod.fst).Nodup := (List.nodup_cons.1 hnd).2
    have hhead : e'.1 ∉ m.map Prod.fst := (List.nodup_cons.1 hnd).1
    by_cases hk : e'.1 = k
    · rw [dinsert, if_pos hk] at he
      rcases List.mem_cons.1 he with h | h
      · exact Or.inl h
      · refine Or.inr ⟨List.mem_cons_of_mem _ h, fun hek => ?_⟩
        exact hhead (hk ▸ hek ▸ List.mem_map_of_mem Prod.fst h)
    · rw [dinsert, if_neg hk] at he
      rcases List.mem_cons.1 he with h | h
      · exact Or.inr ⟨by simp [h], by rw [h]; exact hk⟩
      · rcases ih hnd' h with h' | h'
        · exact Or.inl h'
        · exact Or.inr ⟨List.mem_cons_of_mem _ h'.1, h'.2⟩

theorem dlookup_eq_none_iff (m : List (K × A)) (k : K) :
    dlookup m k = none ↔ k ∉ m.map Prod.fst := by
  induction m with
  | nil => simp [dlookup]
  | cons e m ih =>
    by_cases hk : e.1 = k
    · simp [dlookup, hk]
    · simp [dlookup, hk, ih, Ne.symm hk]

theorem dlookup_isSome_iff (m : List (K × A)) (k : K) :
    (dlookup m k).isSome = true ↔ k ∈ m.map Prod.fst := by
  rw [Option.isSome_iff_ne_none, ne_eq, dlookup_eq_none_iff, not_not]

theorem dlookup_mem (m : List (K × A)) (k : K) (v : A) (hl : dlookup m k = some v) :
    (k, v) ∈ m := by
  induction m with
  | nil => simp [dlookup] at hl
  | cons e m ih =>
    by_cases hk : e.1 = k
    · rw [dlookup, if_pos hk] at hl
      cases hl
      exact List.mem_cons.2 (Or.inl (by rw [← hk]))
    · rw [dlookup, if_neg hk] at hl
      exact List.mem_cons_of_mem _ (ih hl)

theorem dlookup_of_mem_nodup (m : List (K × A)) (k : K) (v : A)
    (hnd : (m.map Prod.fst).Nodup) (hm : (k, v) ∈ m) : dlookup m k = some v := by
  induction m with
  | nil => simp at hm
  | cons e m ih =>
    rcases List.mem_cons.1 hm with h | h
    · rw [← h]; simp [dlookup]
    · have hk : e.1 ≠ k := by
        intro hek
        exact (List.nodup_cons.1 hnd).1 (hek ▸ List.mem_map_of_mem Prod.fst h)
      rw [dlookup, if_neg hk]
      exact ih (List.nodup_cons.1 hnd).2 h

theorem length_dinsert (m : List (K × A)) (k : K) (v : A) :
    (dinsert m k v).length =
      if (dlookup m k).isSome then m.length else m.length + 1 := by
  induction m with
  | nil => simp [dinsert, dlookup]
  | cons e m ih =>
    by_cases hk : e.1 = k
    · simp [dinsert, dlookup, hk]
    · simp only [dinsert, if_neg hk, dlookup, List.length_cons, ih]
      by_cases hs : (dlookup m k).isSome <;> simp [hs, hk]

theorem keys_dinsert_nodup (m : List (K × A)) (k : K) (v : A)
    (hnd : (m.map Prod.fst).Nodup) : ((dinsert m k v).map Prod.fst).Nodup := by
  induction m with
  | nil => simp [dinsert]
  | cons e m ih =>
    by_cases hk : e.1 = k
    · simpa [dinsert, hk] using hnd
    · rw [dinsert, if_neg hk]
      rcases List.nodup_cons.1 hnd with ⟨hh, ht⟩
      refine List.nodup_cons.2 ⟨fun hmem => ?_, ih ht⟩
      rcases List.mem_map.1 hmem with ⟨e', he', hfst⟩
      rcases mem_dinsert m k v e' ht he' with h | h
      · exact hk (by rw [← hfst, h])
      · exact hh (hfst ▸ List.mem_map_of_mem Prod.fst h.1)

theorem dinsert_dinsert_self (m : List (K × A)) (k : K) (v w : A) :
    dinsert (dinsert m k v) k w = dinsert m k w := by
  induction m with
  | nil => simp [dinsert]
  | cons e m ih =>
    by_cases hk : e.1 = k
    · simp [dinsert, hk]
    · simp [dinsert, hk, ih]

theorem ddelete_sublist (m : List (K × A)) (k : K) : (ddelete m k).Sublist m := by
  induction m with
  | nil => simp [ddelete]
  | cons e m ih =>
    by_cases hk : e.1 = k
    · rw [ddelete, if_pos hk]
      exact (List.sublist_cons_self e m)
    · rw [ddelete, if_neg hk]
      exact ih.cons₂ e

theorem dlookup_ddelete_ne (m : List (K × A)) (k k' : K) (hne : k' ≠ k) :
    dlookup (ddelete m k) k' = dlookup m k' := by
  induction m with
  | nil => rfl
  | cons e m ih =>
    by_cases hk : e.1 = k
    · rw [ddelete, if_pos hk, dlookup, if_neg (by rw [hk]; exact Ne.symm hne)]
    · rw [ddelete, if_neg hk]
      by_cases hk' : e.1 = k'
      · rw [dlookup, if_pos hk', dlookup, if_pos hk']
      · rw [dlookup, if_neg hk', dlookup, if_neg hk', ih]

theorem dlookup_ddelete_self (m : List (K × A)) (k : K)
    (hnd : (m.map Prod.fst).Nodup) : dlookup (ddelete m k) k = none := by
  induction m with
  | nil => rfl
  | cons e m ih =>
    by_cases hk : e.1 = k
    · rw [ddelete, if_pos hk, dlookup_eq_none_iff]
      intro hkm
      exact (List.nodup_cons.1 hnd).1 (hk ▸ hkm)
    · rw [ddelete, if_neg hk, dlookup, if_neg hk]
      exact ih (List.nodup_cons.1 hnd).2

theorem mem_ddelete (m : List (K × A)) (k : K) (e : K × A)
    (hnd : (m.map Prod.fst).Nodup) (he : e ∈ ddelete m k) : e ∈ m ∧ e.1 ≠ k := by
  refine ⟨(ddelete_sublist m k).mem he, fun hek => ?_⟩
  have h1 : dlookup (ddelete m k) e.1 = some e.2 :=
    dlookup_of_mem_nodup _ _ _ ((ddelete_sublist m k).map Prod.fst |>.nodup hnd)
      (by simpa using he)
  rw [hek, dlookup_ddelete_self m k hnd] at h1
  cases h1

theorem length_ddelete_present (m : List (K × A)) (k : K)
    (hs : (dlookup m k).isSome) : (ddelete m k).length = m.length - 1 := by
  induction m with
  | nil => simp [dlookup] at hs
  | cons e m ih =>
    by_cases hk : e.1 = k
    · simp [ddelete, hk]
    · rw [dlookup, if_neg hk] at hs
      have hm : 0 < m.length := by
        rcases m with _ | _
        · simp [dlookup] at hs
        · simp
      rw [ddelete, if_neg hk, List.length_cons, ih hs, List.length_cons]
      omega

theorem dlookup_perm (m m' : List (K × A)) (k : K)
    (hp : m.Perm m') (hnd : (m.map Prod.fst).Nodup) :
    dlookup m k = dlookup m' k := by
  have hnd' : (m'.map Prod.fst).Nodup := (hp.map Prod.fst).nodup_iff.1 hnd
  cases hl : dlookup m k with
  | none =>
    rw [dlookup_eq_none_iff] at hl
    rw [eq_comm, dlookup_eq_none_iff]
    intro hk
    exact hl ((hp.map Prod.fst).mem_iff.2 hk)
  | some v =>
    rw [eq_comm]
    exact dlookup_of_mem_nodup m' k v hnd' (hp.mem_iff.1 (dlookup_mem m k v hl))

end DictFacts

/-! ### The comparison primitive and `_swap` -/

namespace IndexedHeap

variable {K V : Type} [DecidableEq K] [Inhabited K] [Inhabited V]

theorem order_refl (h : IndexedHeap K V) (a : ℤ) : are_keys_in_order h a a = true := by
  unfold are_keys_in_order
  cases h.reverse <;> simp

theorem order_total (h : IndexedHeap K V) (a b : ℤ)
    (hf : are_keys_in_order h a b = false) : are_keys_in_order h b a = true := by
  unfold are_keys_in_order at hf ⊢
  cases hrev : h.reverse <;> simp [hrev] at hf ⊢ <;> omega

theorem order_trans (h : IndexedHeap K V) (a b c : ℤ)
    (h1 : are_keys_in_order h a b = true) (h2 : are_keys_in_order h b c = true) :
    are_keys_in_order h a c = true := by
  unfold are_keys_in_order at h1 h2 ⊢
  cases hrev : h.reverse <;> simp [hrev] at h1 h2 ⊢ <;> omega

@[simp] theorem py_index_coe (n : Nat) (i : Nat) : py_index n (i : Int) = i := by
  simp [py_index]

@[simp] theorem swap_key (h : IndexedHeap K V) (a b : Int) : (swap h a b).key = h.key := rfl

@[simp] theorem swap_reverse (h : IndexedHeap K V) (a b : Int) :
    (swap h a b).reverse = h.reverse := rfl

@[simp] theorem are_keys_in_order_swap (h : IndexedHeap K V) (a b : Int) (x y : ℤ) :
    are_keys_in_order (swap h a b) x y = are_keys_in_order h x y := rfl

@[simp] theorem swap_length (h : IndexedHeap K V) (a b : Int) :
    (swap h a b).heap_items.length = h.heap_items.length := by
  simp [swap]

theorem swap_heap_items (h : IndexedHeap K V) (i j : Nat) :
    (swap h (i : Int) (j : Int)).heap_items =
      (h.heap_items.set i (nthd h.heap_items j)).set j (nthd h.heap_items i) := by
  simp [swap]

theorem swap_items_perm (h : IndexedHeap K V) (i j : Nat)
    (hi : i < h.heap_items.length) (hj : j < h.heap_items.length) :
    ((swap h (i : Int) (j : Int)).heap_items).Perm h.heap_items := by
  rw [swap_heap_items]
  exact set_set_perm h.heap_items i j hi hj

theorem get_key_swap_fst (h : IndexedHeap K V) (i j : Nat)
    (hi : i < h.heap_items.length) :
    get_key_by_index (swap h (i : Int) (j : Int)) i = get_key_by_index h j := by
  unfold get_key_by_index
  rw [swap_key, swap_heap_items]
  by_cases hij : i = j
  · subst hij
    rw [nthd_set_self _ _ _ (by simpa using hi)]
  · rw [nthd_set_ne _ _ _ _ (Ne.symm hij), nthd_set_self _ _ _ hi]

theorem get_key_swap_snd (h : IndexedHeap K V) (i j : Nat)
    (hj : j < h.heap_items.length) :
    get_key_by_index (swap h (i : Int) (j : Int)) j = get_key_by_index h i := by
  unfold get_key_by_index
  rw [swap_key, swap_heap_items, nthd_set_self _ _ _ (by simpa using hj)]

theorem get_key_swap_other (h : IndexedHeap K V) (i j x : Nat)
    (hx1 : x ≠ i) (hx2 : x ≠ j) :
    get_key_by_index (swap h (i : Int) (j : Int)) x = get_key_by_index h x := by
  unfold get_key_by_index
  rw [swap_key, swap_heap_items, nthd_set_ne _ _ _ _ (Ne.symm hx2),
    nthd_set_ne _ _ _ _ (Ne.symm hx1)]

/-! ### The `swap_position` choice of `_heapify_down` -/

theorem swap_position_ne_spec (h : IndexedHeap K V) (j : Nat)
    (hne : swap_position h j ≠ j) :
    j < swap_position h j ∧ swap_position h j < h.heap_items.length ∧
    (swap_position h j = j * 2 + 1 ∨ swap_position h j = j * 2 + 2) ∧
    are_keys_in_order h (get_key_by_index h (swap_position h j)) (get_key_by_index h j)
      = true ∧
    (∀ c, (c = j * 2 + 1 ∨ c = j * 2 + 2) → c < h.heap_items.length →
      c ≠ swap_position h j →
      are_keys_in_order h (get_key_by_index h (swap_position h j)) (get_key_by_index h c)
        = true) := by
  unfold swap_position at hne ⊢
  dsimp only at hne ⊢
  split_ifs at hne ⊢ with h1 h2 h3
  · -- right child chosen over the left child
    rcases h2 with ⟨hrn, hro⟩
    rcases h1 with ⟨hln, hlo⟩
    unfold are_items_in_order at hro hlo
    refine ⟨by omega, hrn, Or.inr rfl, order_trans h _ _ _ hro hlo, ?_⟩
    intro c hc hcn hcs
    have hcl : c = j * 2 + 1 := by omega
    subst hcl
    exact hro
  · -- left child chosen, right not better than it
    rcases h1 with ⟨hln, hlo⟩
    unfold are_items_in_order at hlo
    refine ⟨by omega, hln, Or.inl rfl, hlo, ?_⟩
    intro c hc hcn hcs
    have hcr : c = j * 2 + 2 := by omega
    subst hcr
    have hr : are_items_in_order h (j * 2 + 2) (j * 2 + 1) = false := by
      rw [← Bool.not_eq_true]
      exact fun hb => h2 ⟨hcn, hb⟩
    unfold are_items_in_order at hr
    exact order_total h _ _ hr
  · -- right child chosen over the parent, left not better than the parent
    rcases h3 with ⟨hrn, hro⟩
    unfold are_items_in_order at hro
    refine ⟨by omega, hrn, Or.inr rfl, hro, ?_⟩
    intro c hc hcn hcs
    have hcl : c = j * 2 + 1 := by omega
    subst hcl
    have hl : are_items_in_order h (j * 2 + 1) j = false := by
      rw [← Bool.not_eq_true]
      exact fun hb => h1 ⟨hcn, hb⟩
    unfold are_items_in_order at hl
    exact order_trans h _ _ _ hro (order_total h _ _ hl)
  · exact absurd rfl hne

theorem swap_position_eq_spec (h : IndexedHeap K V) (j : Nat)
    (heq : swap_position h j = j) :
    ∀ c, (c = j * 2 + 1 ∨ c = j * 2 + 2) → c < h.heap_items.length →
      are_keys_in_order h (get_key_by_index h j) (get_key_by_index h c) = true := by
  unfold swap_position at heq
  dsimp only at heq
  intro c hc hcn
  split_ifs at heq with h1 h2 h3
  · omega
  · omega
  · omega
  · rcases hc with hcl | hcr
    · subst hcl
      have hl : are_items_in_order h (j * 2 + 1) j = false := by
        rw [← Bool.not_eq_true]
        exact fun hb => h1 ⟨hcn, hb⟩
      unfold are_items_in_order at hl
      exact order_total h _ _ hl
    · subst hcr
      have hr : are_items_in_order h (j * 2 + 2) j = false := by
        rw [← Bool.not_eq_true]
        exact fun hb => h3 ⟨hcn, hb⟩
      unfold are_items_in_order at hr
      exact order_total h _ _ hr

/-! ### Invariance of structure under the sift operations -/

theorem heapify_down_fuel_key (fuel : Nat) :
    ∀ (h : IndexedHeap K V) (i : Nat), (heapify_down_fuel fuel h i).key = h.key := by
  induction fuel with
  | zero => intro h i; rfl
  | succ fuel ih =>
    intro h i
    rw [heapify_down_fuel]
    by_cases hsp : swap_position h i = i
    · rw [if_neg (not_not_intro hsp)]
    · rw [if_pos hsp, ih]
      rfl

theorem heapify_down_fuel_reverse (fuel : Nat) :
    ∀ (h : IndexedHeap K V) (i : Nat), (heapify_down_fuel fuel h i).reverse = h.reverse := by
  induction fuel with
  | zero => intro h i; rfl
  | succ fuel ih =>
    intro h i
    rw [heapify_down_fuel]
    by_cases hsp : swap_position h i = i
    · rw [if_neg (not_not_intro hsp)]
    · rw [if_pos hsp, ih]
      rfl

theorem heapify_down_fuel_length (fuel : Nat) :
    ∀ (h : IndexedHeap K V) (i : Nat),
      (heapify_down_fuel fuel h i).heap_items.length = h.heap_items.length := by
  induction fuel with
  | zero => intro h i; rfl
  | succ fuel ih =>
    intro h i
    rw [heapify_down_fuel]
    by_cases hsp : swap_position h i = i
    · rw [if_neg (not_not_intro hsp)]
    · rw [if_pos hsp, ih, swap_length]

theorem heapify_down_fuel_perm (fuel : Nat) :
    ∀ (h : IndexedHeap K V) (i : Nat),
      ((heapify_down_fuel fuel h i).heap_items).Perm h.heap_items := by
  induction fuel with
  | zero => intro h i; exact List.Perm.refl _
  | succ fuel ih =>
    intro h i
    rw [heapify_down_fuel]
    by_cases hsp : swap_position h i = i
    · rw [if_neg (not_not_intro hsp)]
    · rw [if_pos hsp]
      obtain ⟨hlt, hn, _, _, _⟩ := swap_position_ne_spec h i hsp
      exact (ih _ _).trans (swap_items_perm h i (swap_position h i) (by omega) hn)

theorem heapify_up_fuel_key (fuel : Nat) :
    ∀ (h : IndexedHeap K V) (j : Nat), (heapify_up_fuel fuel h j).key = h.key := by
  induction fuel with
  | zero => intro h j; rfl
  | succ fuel ih =>
    intro h j
    rw [heapify_up_fuel]
    by_cases hc : 0 < j ∧ are_items_in_order h j ((j - 1) / 2) = true
    · rw [if_pos hc, ih]; rfl
    · rw [if_neg hc]

theorem heapify_up_fuel_reverse (fuel : Nat) :
    ∀ (h : IndexedHeap K V) (j : Nat), (heapify_up_fuel fuel h j).reverse = h.reverse := by
  induction fuel with
  | zero => intro h j; rfl
  | succ fuel ih =>
    intro h j
    rw [heapify_up_fuel]
    by_cases hc : 0 < j ∧ are_items_in_order h j ((j - 1) / 2) = true
    · rw [if_pos hc, ih]; rfl
    · rw [if_neg hc]

theorem heapify_up_fuel_length (fuel : Nat) :
    ∀ (h : IndexedHeap K V) (j : Nat),
      (heapify_up_fuel fuel h j).heap_items.length = h.heap_items.length := by
  induction fuel with
  | zero => intro h j; rfl
  | succ fuel ih =>
    intro h j
    rw [heapify_up_fuel]
    by_cases hc : 0 < j ∧ are_items_in_order h j ((j - 1) / 2) = true
    · rw [if_pos hc, ih, swap_length]
    · rw [if_neg hc]

theorem heapify_up_fuel_perm (fuel : Nat) :
    ∀ (h : IndexedHeap K V) (j : Nat), j < h.heap_items.length →
      ((heapify_up_fuel fuel h j).heap_items).Perm h.heap_items := by
  induction fuel with
  | zero => intro h j _; exact List.Perm.refl _
  | succ fuel ih =>
    intro h j hj
    rw [heapify_up_fuel]
    by_cases hc : 0 < j ∧ are_items_in_order h j ((j - 1) / 2) = true
    · rw [if_pos hc]
      refine (ih _ _ ?_).trans (swap_items_perm h j ((j - 1) / 2) hj (by omega))
      rw [swap_length]
      omega
    · rw [if_neg hc]

/-! ### Correctness of the sift operations -/

theorem heapify_down_fuel_restores (fuel : Nat) :
    ∀ (h : IndexedHeap K V) (k j : Nat), k ≤ j →
      h.heap_items.length - j < fuel → almost_below h k j →
      heap_below (heapify_down_fuel fuel h j) k := by
  induction fuel with
  | zero => intro h k j _ hfuel _; omega
  | succ fuel ih =>
    intro h k j hkj hfuel hab
    rw [heapify_down_fuel]
    by_cases hsp : swap_position h j = j
    · rw [if_neg (not_not_intro hsp)]
      intro c hc h0c hkp
      by_cases hp : (c - 1) / 2 = j
      · rw [hp]
        exact swap_position_eq_spec h j hsp c (by omega) hc
      · exact hab.1 c hc h0c hkp hp
    · rw [if_pos hsp]
      obtain ⟨hjm, hmn, hchild, hord, hother⟩ := swap_position_ne_spec h j hsp
      set m := swap_position h j with hmdef
      have hjn : j < h.heap_items.length := by omega
      refine ih (swap h (j : Int) (m : Int)) k m (by omega) (by rw [swap_length]; omega) ?_
      constructor
      · -- all pairs with an in-range parent other than m are in order after the swap
        intro c hc h0c hkp hpm
        rw [swap_length] at hc
        rw [are_keys_in_order_swap]
        by_cases hpj : (c - 1) / 2 = j
        · by_cases hcm : c = m
          · rw [hpj, hcm, get_key_swap_fst h j m hjn, get_key_swap_snd h j m hmn]
            exact hord
          · have hcj : c ≠ j := by omega
            rw [hpj, get_key_swap_fst h j m hjn, get_key_swap_other h j m c hcj hcm]
            exact hother c (by omega) hc hcm
        · by_cases hcj : c = j
          · rw [hcj, get_key_swap_other h j m ((j - 1) / 2) (by omega) (by omega),
              get_key_swap_fst h j m hjn]
            exact hab.2 (by omega) (by omega) m hmn (by omega) (by omega)
          · have hcm : c ≠ m := by
              intro hcm
              exact hpj (by omega)
            rw [get_key_swap_other h j m _ (by omega) hpm,
              get_key_swap_other h j m _ hcj hcm]
            exact hab.1 c hc h0c hkp hpj
      · -- the children of m are in order with m's parent, slot j, after the swap
        intro h0m hkpm c hc h0c hpc
        rw [swap_length] at hc
        rw [are_keys_in_order_swap]
        have hpmj : (m - 1) / 2 = j := by omega
        have hcm : c ≠ m := by omega
        have hcj : c ≠ j := by omega
        rw [hpmj, get_key_swap_fst h j m hjn, get_key_swap_other h j m c hcj hcm]
        have hx := hab.1 c hc h0c (by omega) (by omega)
        rwa [hpc] at hx

theorem heapify_up_fuel_restores (fuel : Nat) :
    ∀ (h : IndexedHeap K V) (j : Nat), j < fuel → j < h.heap_items.length →
      almost_above h j → HeapOrdered (heapify_up_fuel fuel h j) := by
  induction fuel with
  | zero => intro h j hfuel _ _; omega
  | succ fuel ih =>
    intro h j hfuel hjn hab
    rw [heapify_up_fuel]
    by_cases hc : 0 < j ∧ are_items_in_order h j ((j - 1) / 2) = true
    · obtain ⟨h0j, hord⟩ := hc
      unfold are_items_in_order at hord
      rw [if_pos ⟨h0j, hord⟩]
      set p := (j - 1) / 2 with hpdef
      have hpj : p < j := by omega
      have hpn : p < h.heap_items.length := by omega
      refine ih (swap h (j : Int) (p : Int)) p (by omega) (by rw [swap_length]; omega) ?_
      constructor
      · -- all pairs except the one into slot p are in order after the swap
        intro c hc' h0c hcp
        rw [swap_length] at hc'
        rw [are_keys_in_order_swap]
        by_cases hcj : c = j
        · rw [hcj, ← hpdef, get_key_swap_snd h j p hpn, get_key_swap_fst h j p hjn]
          exact hord
        · by_cases hqp : (c - 1) / 2 = p
          · rw [hqp, get_key_swap_snd h j p hpn,
              get_key_swap_other h j p c hcj hcp]
            refine order_trans h _ _ _ hord ?_
            have hpc := hab.1 c hc' h0c hcj
            rwa [hqp] at hpc
          · by_cases hqj : (c - 1) / 2 = j
            · rw [hqj, get_key_swap_fst h j p hjn,
                get_key_swap_other h j p c hcj hcp]
              exact hab.2 h0j c hc' h0c hqj
            · rw [get_key_swap_other h j p _ hqj hqp,
                get_key_swap_other h j p c hcj hcp]
              exact hab.1 c hc' h0c hcj
      · -- the children of p are in order with p's parent after the swap
        intro h0p c hc' h0c hq
        rw [swap_length] at hc'
        rw [are_keys_in_order_swap]
        have hgpj : (p - 1) / 2 ≠ j := by omega
        have hgpp : (p - 1) / 2 ≠ p := by omega
        have hordgp : are_keys_in_order h (get_key_by_index h ((p - 1) / 2))
            (get_key_by_index h p) = true := by
          have := hab.1 p hpn h0p (by omega)
          rwa [hpdef] at this
        rw [get_key_swap_other h j p _ hgpj hgpp]
        by_cases hcj : c = j
        · rw [hcj, get_key_swap_fst h j p hjn]
          exact hordgp
        · have hcp : c ≠ p := by omega
          rw [get_key_swap_other h j p c hcj hcp]
          refine order_trans h _ _ _ hordgp ?_
          have := hab.1 c hc' h0c hcj
          rwa [hq] at this
    · rw [if_neg hc]
      intro c hcn h0c _
      by_cases hcj : c = j
      · subst hcj
        rcases Decidable.not_and_iff_or_not.1 hc with h0 | hno
        · omega
        · have hfalse : are_items_in_order h c ((c - 1) / 2) = false := by
            rw [← Bool.not_eq_true]
            exact hno
          unfold are_items_in_order at hfalse
          exact order_total h _ _ hfalse
      · exact hab.1 c hcn h0c hcj

/-! ### Fuel sufficiency: the sift recursions terminate within their bounds -/

theorem heapify_down_fuel_sufficient (fuel1 : Nat) :
    ∀ (fuel2 : Nat) (h : IndexedHeap K V) (i : Nat),
      h.heap_items.length - i < fuel1 → h.heap_items.length - i < fuel2 →
      heapify_down_fuel fuel1 h i = heapify_down_fuel fuel2 h i := by
  induction fuel1 with
  | zero => intro fuel2 h i h1 _; omega
  | succ fuel1 ih =>
    intro fuel2 h i h1 h2
    cases fuel2 with
    | zero => omega
    | succ fuel2 =>
      rw [heapify_down_fuel, heapify_down_fuel]
      by_cases hsp : swap_position h i = i
      · rw [if_neg (not_not_intro hsp), if_neg (not_not_intro hsp)]
      · rw [if_pos hsp, if_pos hsp]
        obtain ⟨hlt, hn, _, _, _⟩ := swap_position_ne_spec h i hsp
        exact ih fuel2 _ _ (by rw [swap_length]; omega) (by rw [swap_length]; omega)

theorem heapify_up_fuel_sufficient (fuel1 : Nat) :
    ∀ (fuel2 : Nat) (h : IndexedHeap K V) (j : Nat), j < fuel1 → j < fuel2 →
      heapify_up_fuel fuel1 h j = heapify_up_fuel fuel2 h j := by
  induction fuel1 with
  | zero => intro fuel2 h j h1 _; omega
  | succ fuel1 ih =>
    intro fuel2 h j h1 h2
    cases fuel2 with
    | zero => omega
    | succ fuel2 =>
      rw [heapify_up_fuel, heapify_up_fuel]
      by_cases hc : 0 < j ∧ are_items_in_order h j ((j - 1) / 2) = true
      · rw [if_pos hc, if_pos hc]
        exact ih fuel2 _ _ (by omega) (by omega)
      · rw [if_neg hc, if_neg hc]

/-! ### The unfueled sift operations -/

theorem heapify_down_eq_fuel (h : IndexedHeap K V) (i fuel : Nat)
    (hf : h.heap_items.length - i < fuel) :
    heapify_down h i = heapify_down_fuel fuel h i :=
  heapify_down_fuel_sufficient _ fuel h i (by omega) hf

theorem heapify_down_key (h : IndexedHeap K V) (i : Nat) :
    (heapify_down h i).key = h.key := heapify_down_fuel_key _ h i

theorem heapify_down_reverse (h : IndexedHeap K V) (i : Nat) :
    (heapify_down h i).reverse = h.reverse := heapify_down_fuel_reverse _ h i

theorem heapify_down_length (h : IndexedHeap K V) (i : Nat) :
    (heapify_down h i).heap_items.length = h.heap_items.length :=
  heapify_down_fuel_length _ h i

theorem heapify_down_perm (h : IndexedHeap K V) (i : Nat) :
    ((heapify_down h i).heap_items).Perm h.heap_items := heapify_down_fuel_perm _ h i

theorem heapify_down_restores (h : IndexedHeap K V) (k j : Nat) (hkj : k ≤ j)
    (hab : almost_below h k j) : heap_below (heapify_down h j) k :=
  heapify_down_fuel_restores _ h k j hkj (by omega) hab

theorem heapify_up_eq_fuel (h : IndexedHeap K V) (j fuel : Nat) (hf : j < fuel) :
    heapify_up h j = heapify_up_fuel fuel h j :=
  heapify_up_fuel_sufficient _ fuel h j (by omega) hf

theorem heapify_up_key (h : IndexedHeap K V) (j : Nat) :
    (heapify_up h j).key = h.key := heapify_up_fuel_key _ h j

theorem heapify_up_reverse (h : IndexedHeap K V) (j : Nat) :
    (heapify_up h j).reverse = h.reverse := heapify_up_fuel_reverse _ h j

theorem heapify_up_length (h : IndexedHeap K V) (j : Nat) :
    (heapify_up h j).heap_items.length = h.heap_items.length :=
  heapify_up_fuel_length _ h j

theorem heapify_up_perm (h : IndexedHeap K V) (j : Nat) (hj : j < h.heap_items.length) :
    ((heapify_up h j).heap_items).Perm h.heap_items := heapify_up_fuel_perm _ h j hj

theorem heapify_up_restores (h : IndexedHeap K V) (j : Nat) (hjn : j < h.heap_items.length)
    (hab : almost_above h j) : HeapOrdered (heapify_up h j) :=
  heapify_up_fuel_restores _ h j (by omega) hjn hab

/-! ### Floyd's bottom-up construction (`_create_heap` / `__init__`) -/

theorem foldl_heapify_down_key (l : List Nat) :
    ∀ h : IndexedHeap K V, ((l.foldl (fun acc it => heapify_down acc it) h)).key = h.key := by
  induction l with
  | nil => intro h; rfl
  | cons i l ih => intro h; rw [List.foldl_cons, ih, heapify_down_key]

theorem foldl_heapify_down_reverse (l : List Nat) :
    ∀ h : IndexedHeap K V,
      ((l.foldl (fun acc it => heapify_down acc it) h)).reverse = h.reverse := by
  induction l with
  | nil => intro h; rfl
  | cons i l ih => intro h; rw [List.foldl_cons, ih, heapify_down_reverse]

theorem foldl_heapify_down_perm (l : List Nat) :
    ∀ h : IndexedHeap K V,
      ((l.foldl (fun acc it => heapify_down acc it) h)).heap_items.Perm h.heap_items := by
  induction l with
  | nil => intro h; exact List.Perm.refl _
  | cons i l ih => intro h; exact (ih _).trans (heapify_down_perm h i)

theorem foldl_heapify_down_below (i : Nat) :
    ∀ h : IndexedHeap K V, heap_below h i →
      heap_below ((List.range i).reverse.foldl (fun acc it => heapify_down acc it) h) 0 := by
  induction i with
  | zero => intro h hb; simpa using hb
  | succ i ih =>
    intro h hb
    have hrange : (List.range (i + 1)).reverse = i :: (List.range i).reverse := by
      rw [List.range_succ, List.reverse_append]
      rfl
    rw [hrange, List.foldl_cons]
    refine ih (heapify_down h i) ?_
    refine heapify_down_restores h i i (le_refl i) ⟨?_, ?_⟩
    · intro c hc h0c hip hne
      exact hb c hc h0c (by omega)
    · intro h0i hle
      exact absurd hle (by omega)

theorem create_heap_ordered (h : IndexedHeap K V) : HeapOrdered (create_heap h) := by
  unfold create_heap
  refine foldl_heapify_down_below (h.heap_items.length / 2) h ?_
  intro c hc h0c hkp
  exact absurd hkp (by omega)

theorem of_items_key (items : List (K × V)) (f : V → ℤ) (r : Bool) :
    (of_items items f r).key = f := by
  unfold of_items
  rw [create_heap, foldl_heapify_down_key]

theorem of_items_reverse (items : List (K × V)) (f : V → ℤ) (r : Bool) :
    (of_items items f r).reverse = r := by
  unfold of_items
  rw [create_heap, foldl_heapify_down_reverse]

theorem of_items_perm (items : List (K × V)) (f : V → ℤ) (r : Bool) :
    ((of_items items f r).heap_items).Perm items := by
  unfold of_items
  rw [create_heap]
  exact foldl_heapify_down_perm _ _

theorem of_items_length (items : List (K × V)) (f : V → ℤ) (r : Bool) :
    (of_items items f r).heap_items.length = items.length :=
  (of_items_perm items f r).length_eq

theorem of_items_ordered (items : List (K × V)) (f : V → ℤ) (r : Bool) :
    HeapOrdered (of_items items f r) := create_heap_ordered _

/-! ### `pop_first` -/

theorem py_index_neg_one (n : Nat) : py_index n (-1) = n - 1 := by
  unfold py_index
  rw [if_pos (by omega)]
  omega

theorem pop_first_empty (h : IndexedHeap K V) (he : h.heap_items = []) :
    pop_first h = (none, h) := by
  rw [pop_first, if_pos (by rw [he]; rfl)]

theorem pop_first_fst (h : IndexedHeap K V) (hne : h.heap_items ≠ []) :
    (pop_first h).1 = some (nthd h.heap_items 0) := by
  rw [pop_first, if_neg (by simpa [List.isEmpty_iff] using hne)]

theorem root_min (h : IndexedHeap K V) (hord : HeapOrdered h) :
    ∀ i, i < h.heap_items.length →
      are_keys_in_order h (get_key_by_index h 0) (get_key_by_index h i) = true := by
  intro i
  induction i using Nat.strong_induction_on with
  | _ i ih =>
    intro hi
    rcases Nat.eq_zero_or_pos i with h0 | h0
    · rw [h0]; exact order_refl h _
    · exact order_trans h _ _ _ (ih ((i - 1) / 2) (by omega) (by omega))
        (hord i hi h0 (by omega))

theorem dropLast_set_last {A : Type} (l : List A) (x : A) :
    (l.set (l.length - 1) x).dropLast = l.dropLast := by
  induction l with
  | nil => rfl
  | cons a l ih =>
    cases l with
    | nil => rfl
    | cons b l' =>
      have hlen : (a :: b :: l').length - 1 = (b :: l').length - 1 + 1 := by
        simp
      rw [hlen, List.set_cons_succ]
      have hcons : ((b :: l').set ((b :: l').length - 1) x).length = l'.length + 1 := by
        simp
      rcases hset : (b :: l').set ((b :: l').length - 1) x with _ | ⟨c, t⟩
      · rw [hset] at hcons; simp at hcons
      · rw [List.dropLast_cons₂, ← hset, ih, List.dropLast_cons₂]

theorem dropLast_set_last_of_eq {A : Type} (l : List A) (x : A) (i : Nat)
    (hi : i = l.length - 1) : (l.set i x).dropLast = l.dropLast := by
  rw [hi]
  exact dropLast_set_last l x

/-- After a non-empty `pop_first`, the heap array before the final sift is the
moved-in last element followed by the old interior slots: explicitly,
dropping the last slot of the swapped array. -/
theorem pop_first_snd_eq (h : IndexedHeap K V) (hne : h.heap_items ≠ []) :
    (pop_first h).2 =
      heapify_down
        { swap h 0 (-1) with
          handle_to_position_mapping :=
            ddelete (swap h 0 (-1)).handle_to_position_mapping
              (nthd (swap h 0 (-1)).heap_items ((swap h 0 (-1)).heap_items.length - 1)).1
          heap_items := (swap h 0 (-1)).heap_items.dropLast } 0 := by
  rw [pop_first, if_neg (by simpa [List.isEmpty_iff] using hne)]

theorem swap_first_last_heap_items (h : IndexedHeap K V) (hne : h.heap_items ≠ []) :
    (swap h 0 (-1)).heap_items =
      (h.heap_items.set 0 (nthd h.heap_items (h.heap_items.length - 1))).set
        (h.heap_items.length - 1) (nthd h.heap_items 0) := by
  have hn : 0 < h.heap_items.length := List.length_pos.2 hne
  simp only [swap, py_index_neg_one]
  rw [show py_index h.heap_items.length 0 = 0 from by simp [py_index]]

theorem pop_mid_items (h : IndexedHeap K V) (hne : h.heap_items ≠ []) :
    ((swap h 0 (-1)).heap_items.dropLast) =
      (h.heap_items.set 0 (nthd h.heap_items (h.heap_items.length - 1))).dropLast := by
  rw [swap_first_last_heap_items h hne]
  exact dropLast_set_last_of_eq _ _ _ (by simp)

theorem set_head_dropLast_perm {A : Type} [Inhabited A] (l : List A) (hne : l ≠ []) :
    ((l.set 0 (nthd l (l.length - 1))).dropLast).Perm l.tail := by
  rcases l with _ | ⟨a, rest⟩
  · exact absurd rfl hne
  · rcases rest with _ | ⟨b, t⟩
    · simp [nthd]
    · have hidx : (a :: b :: t).length - 1 = t.length + 1 := by simp
      have hnth : nthd (a :: b :: t) (t.length + 1) = nthd (b :: t) t.length := rfl
      rw [hidx, hnth, List.set_cons_zero, List.dropLast_cons₂, List.tail_cons]
      have hlast : (b :: t).dropLast ++ [nthd (b :: t) t.length] = b :: t := by
        have hgl : nthd (b :: t) t.length = (b :: t).getLast (List.cons_ne_nil b t) := by
          rw [nthd_eq_getElem (b :: t) t.length (by simp), List.getLast_eq_getElem]
          congr 1
        rw [hgl, List.dropLast_append_getLast]
      have hperm :=
        (List.perm_append_singleton (nthd (b :: t) t.length) ((b :: t).dropLast)).symm
      rw [hlast] at hperm
      exact hperm

theorem pop_first_items_perm (h : IndexedHeap K V) (hne : h.heap_items ≠ []) :
    ((pop_first h).2.heap_items).Perm h.heap_items.tail := by
  rw [pop_first_snd_eq h hne]
  refine (heapify_down_perm _ 0).trans ?_
  show ((swap h 0 (-1)).heap_items.dropLast).Perm h.heap_items.tail
  rw [pop_mid_items h hne]
  exact set_head_dropLast_perm h.heap_items hne

theorem pop_first_length (h : IndexedHeap K V) (hne : h.heap_items ≠ []) :
    (pop_first h).2.heap_items.length = h.heap_items.length - 1 := by
  have := (pop_first_items_perm h hne).length_eq
  rw [this, List.length_tail]

theorem pop_first_key (h : IndexedHeap K V) : ((pop_first h).2).key = h.key := by
  rcases hitems : h.heap_items with _ | ⟨a, rest⟩
  · rw [pop_first_empty h hitems]
  · rw [pop_first_snd_eq h (by rw [hitems]; exact List.cons_ne_nil a rest),
      heapify_down_key]
    rfl

theorem pop_first_reverse (h : IndexedHeap K V) : ((pop_first h).2).reverse = h.reverse := by
  rcases hitems : h.heap_items with _ | ⟨a, rest⟩
  · rw [pop_first_empty h hitems]
  · rw [pop_first_snd_eq h (by rw [hitems]; exact List.cons_ne_nil a rest),
      heapify_down_reverse]
    rfl

theorem are_keys_in_order_pop (h : IndexedHeap K V) (x y : ℤ) :
    are_keys_in_order ((pop_first h).2) x y = are_keys_in_order h x y := by
  unfold are_keys_in_order
  rw [pop_first_reverse]

/-- A heap whose interior slots `1 .. n-2` agree with an ordered heap is
almost a heap from the root: only the root's pairs can be out of order. -/
theorem mid_heap_almost (h h2 : IndexedHeap K V)
    (hkey : h2.key = h.key) (hrev : h2.reverse = h.reverse)
    (hlen : h2.heap_items.length = h.heap_items.length - 1)
    (hmid : ∀ i, 1 ≤ i → i < h.heap_items.length - 1 →
      nthd h2.heap_items i = nthd h.heap_items i)
    (hord : HeapOrdered h) : almost_below h2 0 0 := by
  constructor
  · intro c hc h0c _ hp0
    rw [hlen] at hc
    have hp1 : 1 ≤ (c - 1) / 2 := by omega
    unfold get_key_by_index
    rw [hkey, hmid c (by omega) hc, hmid ((c - 1) / 2) hp1 (by omega)]
    have hx := hord c (by omega) h0c (by omega)
    unfold get_key_by_index at hx
    unfold are_keys_in_order at hx ⊢
    rw [hrev]
    exact hx
  · intro h00
    exact absurd h00 (by omega)

theorem pop_first_ordered (h : IndexedHeap K V) (hord : HeapOrdered h) :
    HeapOrdered (pop_first h).2 := by
  rcases hitems : h.heap_items with _ | ⟨a, rest⟩
  · rw [pop_first_empty h hitems]; exact hord
  · have hne : h.heap_items ≠ [] := by rw [hitems]; exact List.cons_ne_nil a rest
    rw [pop_first_snd_eq h hne]
    refine heapify_down_restores _ 0 0 (le_refl 0) ?_
    refine mid_heap_almost h _ rfl rfl ?_ ?_ hord
    · show ((swap h 0 (-1)).heap_items.dropLast).length = h.heap_items.length - 1
      rw [List.length_dropLast, swap_length]
    · intro i h1i hin
      show nthd ((swap h 0 (-1)).heap_items.dropLast) i = nthd h.heap_items i
      rw [pop_mid_items h hne,
        nthd_dropLast _ i (by simpa using hin),
        nthd_set_ne _ 0 i _ (by omega)]

theorem pop_first_min (h : IndexedHeap K V) (hord : HeapOrdered h)
    (hne : h.heap_items ≠ []) :
    ∀ x ∈ (pop_first h).2.heap_items,
      are_keys_in_order h (h.key (nthd h.heap_items 0).2) (h.key x.2) = true := by
  intro x hx
  have hx2 : x ∈ h.heap_items.tail := (pop_first_items_perm h hne).subset hx
  have hx3 : x ∈ h.heap_items := List.mem_of_mem_tail hx2
  rcases (mem_iff_nthd _ _).1 hx3 with ⟨i, hi, hnth⟩
  have hr := root_min h hord i hi
  unfold get_key_by_index at hr
  rw [hnth] at hr
  exact hr

end IndexedHeap

open IndexedHeap

/-! ### The `sort` drain -/

theorem sort_fuel_spec {K' V : Type} [DecidableEq K'] [Inhabited K'] [Inhabited V] :
    ∀ (fuel : Nat) (h : IndexedHeap (Option K') V),
      HeapOrdered h → (∀ p ∈ h.heap_items, p.1.isSome = true) →
      h.heap_items.length < fuel →
      ((sort_fuel fuel h).1).Perm h.heap_items ∧
      (sort_fuel fuel h).2.heap_items = [] ∧
      List.Pairwise
        (fun a b => are_keys_in_order h (h.key a.2) (h.key b.2) = true)
        (sort_fuel fuel h).1 := by
  intro fuel
  induction fuel with
  | zero => intro h _ _ hf; omega
  | succ fuel ih =>
    intro h hord hsome hf
    rcases hitems : h.heap_items with _ | ⟨⟨k0, v0⟩, rest⟩
    · rw [sort_fuel, pop_first_empty h hitems]
      exact ⟨by simp [hitems], hitems, List.Pairwise.nil⟩
    · have hne : h.heap_items ≠ [] := by rw [hitems]; exact List.cons_ne_nil _ _
      have hfst : (pop_first h).1 = some (k0, v0) := by
        rw [pop_first_fst h hne, hitems]
        rfl
      have hpop : pop_first h = (some (k0, v0), (pop_first h).2) := by
        rw [← hfst]
      have hk0 : (k0 : Option K').isSome = true := by
        refine hsome (k0, v0) ?_
        rw [hitems]
        exact List.mem_cons_self _ _
      rw [sort_fuel, hpop]
      dsimp only
      rw [if_pos hk0]
      have hlen : (pop_first h).2.heap_items.length = h.heap_items.length - 1 :=
        pop_first_length h hne
      have hn1 : 0 < h.heap_items.length := by rw [hitems]; simp
      obtain ⟨ihperm, ihnil, ihpw⟩ :=
        ih (pop_first h).2 (pop_first_ordered h hord)
          (fun p hp => hsome p (List.mem_of_mem_tail
            ((pop_first_items_perm h hne).subset hp)))
          (by omega)
      refine ⟨?_, ihnil, ?_⟩
      · refine List.Perm.cons _ ?_
        refine ihperm.trans ?_
        have htp := pop_first_items_perm h hne
        rwa [hitems, List.tail_cons] at htp
      · refine List.Pairwise.cons ?_ ?_
        · intro b hb
          have hbm : b ∈ (pop_first h).2.heap_items := ihperm.subset hb
          have hmin := pop_first_min h hord hne b hbm
          rw [hitems] at hmin
          exact hmin
        · refine ihpw.imp ?_
          intro a b hab
          rwa [are_keys_in_order_pop, pop_first_key] at hab

/-! ### The bijection invariant -/

namespace IndexedHeap

variable {K V : Type} [DecidableEq K] [Inhabited K] [Inhabited V]

theorem nthd_swap_fst (h : IndexedHeap K V) (i j : Nat) (hi : i < h.heap_items.length) :
    nthd (swap h (i : Int) (j : Int)).heap_items i = nthd h.heap_items j := by
  rw [swap_heap_items]
  by_cases hij : i = j
  · subst hij
    rw [nthd_set_self _ _ _ (by simpa using hi)]
  · rw [nthd_set_ne _ _ _ _ (Ne.symm hij), nthd_set_self _ _ _ hi]

theorem nthd_swap_snd (h : IndexedHeap K V) (i j : Nat) (hj : j < h.heap_items.length) :
    nthd (swap h (i : Int) (j : Int)).heap_items j = nthd h.heap_items i := by
  rw [swap_heap_items, nthd_set_self _ _ _ (by simpa using hj)]

theorem nthd_swap_other (h : IndexedHeap K V) (i j x : Nat)
    (hx1 : x ≠ i) (hx2 : x ≠ j) :
    nthd (swap h (i : Int) (j : Int)).heap_items x = nthd h.heap_items x := by
  rw [swap_heap_items, nthd_set_ne _ _ _ _ (Ne.symm hx2), nthd_set_ne _ _ _ _ (Ne.symm hx1)]

/-- In a well-formed heap, distinct slots hold distinct keys. -/
theorem wf_slot_inj (h : IndexedHeap K V) (hwf : WF h) (i j : Nat)
    (hi : i < h.heap_items.length) (hj : j < h.heap_items.length)
    (heq : (nthd h.heap_items i).1 = (nthd h.heap_items j).1) : i = j := by
  have h1 := hwf.2.1 i hi
  have h2 := hwf.2.1 j hj
  rw [heq, h2] at h1
  have := Option.some.inj h1
  omega

theorem wf_lookup_slot (h : IndexedHeap K V) (hwf : WF h) (k : K) (idx : Int)
    (hl : dlookup h.handle_to_position_mapping k = some idx) :
    0 ≤ idx ∧ idx.toNat < h.heap_items.length ∧
      (nthd h.heap_items idx.toNat).1 = k :=
  hwf.1 (k, idx) (dlookup_mem _ _ _ hl)

theorem py_index_nonneg (n : Nat) (i : Int) (hi : 0 ≤ i) : py_index n i = i.toNat := by
  unfold py_index
  rw [if_neg (by omega)]

theorem swap_mapping (h : IndexedHeap K V) (a b : Int) :
    (swap h a b).handle_to_position_mapping =
      dinsert
        (dinsert h.handle_to_position_mapping
          (nthd h.heap_items (py_index h.heap_items.length a)).1 b)
        (nthd h.heap_items (py_index h.heap_items.length b)).1 a := rfl

theorem WF_swap (h : IndexedHeap K V) (i j : Nat)
    (hi : i < h.heap_items.length) (hj : j < h.heap_items.length) (hwf : WF h) :
    WF (swap h (i : Int) (j : Int)) := by
  have hla : dlookup h.handle_to_position_mapping (nthd h.heap_items i).1 = some (i : Int) :=
    hwf.2.1 i hi
  have hlb : dlookup h.handle_to_position_mapping (nthd h.heap_items j).1 = some (j : Int) :=
    hwf.2.1 j hj
  have hnd : (h.handle_to_position_mapping.map Prod.fst).Nodup := hwf.2.2.1
  have hmap : (swap h (i : Int) (j : Int)).handle_to_position_mapping =
      dinsert (dinsert h.handle_to_position_mapping (nthd h.heap_items i).1 (j : Int))
        (nthd h.heap_items j).1 (i : Int) := by
    rw [swap_mapping, py_index_coe, py_index_coe]
  have hnd1 : ((dinsert h.handle_to_position_mapping (nthd h.heap_items i).1
      (j : Int)).map Prod.fst).Nodup := keys_dinsert_nodup _ _ _ hnd
  refine ⟨?_, ?_, ?_, ?_⟩
  · intro e he
    rw [hmap] at he
    rcases mem_dinsert _ _ _ _ hnd1 he with hb | ⟨he1, hneb⟩
    · subst hb
      refine ⟨by simp, by simpa using hi, ?_⟩
      show (nthd (swap h (i : Int) (j : Int)).heap_items ((i : Int)).toNat).1 = _
      rw [Int.toNat_natCast, nthd_swap_fst h i j hi]
    · rcases mem_dinsert _ _ _ _ hnd he1 with ha | ⟨he2, hnea⟩
      · subst ha
        refine ⟨by simp, by simpa using hj, ?_⟩
        show (nthd (swap h (i : Int) (j : Int)).heap_items ((j : Int)).toNat).1 = _
        rw [Int.toNat_natCast, nthd_swap_snd h i j hj]
      · obtain ⟨h0e, hse, hke⟩ := hwf.1 e he2
        refine ⟨h0e, by simpa using hse, ?_⟩
        have hsi : e.2.toNat ≠ i := by
          intro hcontra
          exact hnea (by rw [← hke, hcontra])
        have hsj : e.2.toNat ≠ j := by
          intro hcontra
          exact hneb (by rw [← hke, hcontra])
        rw [nthd_swap_other h i j _ hsi hsj]
        exact hke
  · intro s hs
    rw [swap_length] at hs
    rw [hmap]
    by_cases hsj : s = j
    · rw [hsj, nthd_swap_snd h i j hj]
      by_cases hab : (nthd h.heap_items i).1 = (nthd h.heap_items j).1
      · have hij : i = j := wf_slot_inj h hwf i j hi hj hab
        rw [hab, dlookup_dinsert_self, hij]
      · rw [dlookup_dinsert_ne _ _ _ _ hab, dlookup_dinsert_self]
    · by_cases hsi : s = i
      · rw [hsi, nthd_swap_fst h i j hi, dlookup_dinsert_self]
      · rw [nthd_swap_other h i j s hsi hsj]
        have hka : (nthd h.heap_items s).1 ≠ (nthd h.heap_items i).1 := by
          intro hx
          exact hsi (wf_slot_inj h hwf s i hs hi hx)
        have hkb : (nthd h.heap_items s).1 ≠ (nthd h.heap_items j).1 := by
          intro hx
          exact hsj (wf_slot_inj h hwf s j hs hj hx)
        rw [dlookup_dinsert_ne _ _ _ _ hkb, dlookup_dinsert_ne _ _ _ _ hka]
        exact hwf.2.1 s hs
  · rw [hmap]
    exact keys_dinsert_nodup _ _ _ hnd1
  · have hbsome : (dlookup
        (dinsert h.handle_to_position_mapping (nthd h.heap_items i).1 (j : Int))
        (nthd h.heap_items j).1).isSome = true := by
      by_cases hab : (nthd h.heap_items j).1 = (nthd h.heap_items i).1
      · rw [hab, dlookup_dinsert_self]
        rfl
      · rw [dlookup_dinsert_ne _ _ _ _ hab, hlb]
        rfl
    rw [hmap, swap_length, length_dinsert, length_dinsert, hla, hbsome]
    simp [hwf.2.2.2]

theorem WF_heapify_down_fuel (fuel : Nat) :
    ∀ (h : IndexedHeap K V) (i : Nat), WF h → WF (heapify_down_fuel fuel h i) := by
  induction fuel with
  | zero => intro h i hwf; exact hwf
  | succ fuel ih =>
    intro h i hwf
    rw [heapify_down_fuel]
    by_cases hsp : swap_position h i = i
    · rw [if_neg (not_not_intro hsp)]
      exact hwf
    · rw [if_pos hsp]
      obtain ⟨hlt, hn, _, _, _⟩ := swap_position_ne_spec h i hsp
      exact ih _ _ (WF_swap h i (swap_position h i) (by omega) hn hwf)

theorem WF_heapify_down (h : IndexedHeap K V) (i : Nat) (hwf : WF h) :
    WF (heapify_down h i) := WF_heapify_down_fuel _ h i hwf

theorem WF_heapify_up_fuel (fuel : Nat) :
    ∀ (h : IndexedHeap K V) (j : Nat), j < h.heap_items.length → WF h →
      WF (heapify_up_fuel fuel h j) := by
  induction fuel with
  | zero => intro h j _ hwf; exact hwf
  | succ fuel ih =>
    intro h j hj hwf
    rw [heapify_up_fuel]
    by_cases hc : 0 < j ∧ are_items_in_order h j ((j - 1) / 2) = true
    · rw [if_pos hc]
      refine ih _ _ ?_ (WF_swap h j ((j - 1) / 2) hj (by omega) hwf)
      rw [swap_length]
      omega
    · rw [if_neg hc]
      exact hwf

theorem WF_heapify_up (h : IndexedHeap K V) (j : Nat) (hj : j < h.heap_items.length)
    (hwf : WF h) : WF (heapify_up h j) := WF_heapify_up_fuel _ h j hj hwf

theorem WF_foldl_heapify_down (l : List Nat) :
    ∀ h : IndexedHeap K V, WF h →
      WF (l.foldl (fun acc it => heapify_down acc it) h) := by
  induction l with
  | nil => intro h hwf; exact hwf
  | cons i l ih => intro h hwf; exact ih _ (WF_heapify_down h i hwf)

/-! ### Well-formedness of construction -/

theorem dinsert_append_of_not_mem {A : Type} (m : List (K × A)) (k : K) (v : A)
    (hk : k ∉ m.map Prod.fst) : dinsert m k v = m ++ [(k, v)] := by
  induction m with
  | nil => rfl
  | cons e m ih =>
    have hke : e.1 ≠ k := by
      intro hx
      exact hk (hx ▸ List.mem_map_of_mem Prod.fst (List.mem_cons_self e m))
    rw [dinsert, if_neg hke, ih (fun hx => hk (List.mem_cons_of_mem _ hx))]
    rfl

theorem build_mapping_go (l : List (K × V)) :
    ∀ (s : Nat) (acc : List (K × Int)),
      ((l.map Prod.fst).Nodup) →
      (∀ p ∈ l, p.1 ∉ acc.map Prod.fst) →
      (l.enumFrom s).foldl (fun m p => dinsert m p.2.1 (p.1 : Int)) acc
        = acc ++ (l.enumFrom s).map (fun p => (p.2.1, (p.1 : Int))) := by
  induction l with
  | nil => intro s acc _ _; simp
  | cons a l ih =>
    intro s acc hnd hdisj
    rw [List.enumFrom_cons, List.foldl_cons, List.map_cons]
    rw [dinsert_append_of_not_mem acc a.1 (s : Int) (hdisj a (List.mem_cons_self a l))]
    rw [ih (s + 1) (acc ++ [(a.1, (s : Int))]) (List.nodup_cons.1 hnd).2 ?_]
    · rw [List.append_assoc, List.singleton_append]
    · intro p hp
      rw [List.map_append]
      intro hmem
      rcases List.mem_append.1 hmem with hx | hx
      · exact hdisj p (List.mem_cons_of_mem a hp) hx
      · simp only [List.map_cons, List.map_nil, List.mem_singleton] at hx
        exact (List.nodup_cons.1 hnd).1 (hx ▸ List.mem_map_of_mem Prod.fst hp)

/-- The enumerated association list produced by the `__init__`
dict comprehension on unique keys. -/
theorem build_mapping_eq (items : List (K × V)) (hnd : (items.map Prod.fst).Nodup) :
    build_mapping items
      = (items.enumFrom 0).map (fun p => (p.2.1, (p.1 : Int))) := by
  unfold build_mapping
  rw [show items.enum = items.enumFrom 0 from rfl]
  rw [build_mapping_go items 0 [] hnd (by intro p _; simp)]
  rfl

theorem enum_map_keys (items : List (K × V)) (s : Nat) :
    ((items.enumFrom s).map (fun p => (p.2.1, (p.1 : Int)))).map Prod.fst
      = items.map Prod.fst := by
  induction items generalizing s with
  | nil => rfl
  | cons a l ih => rw [List.enumFrom_cons]; simp [ih]

theorem enum_map_mem (items : List (K × V)) (s : Nat) (e : K × Int)
    (he : e ∈ (items.enumFrom s).map (fun p => (p.2.1, (p.1 : Int)))) :
    ∃ jj, jj < items.length ∧ e = ((nthd items jj).1, ((s + jj : Nat) : Int)) := by
  induction items generalizing s with
  | nil => simp at he
  | cons a l ih =>
    rw [List.enumFrom_cons, List.map_cons] at he
    rcases List.mem_cons.1 he with hx | hx
    · exact ⟨0, by simp, by simpa [nthd] using hx⟩
    · rcases ih (s + 1) hx with ⟨jj, hjj, hejj⟩
      refine ⟨jj + 1, by simpa using hjj, ?_⟩
      rw [hejj]
      have : s + 1 + jj = s + (jj + 1) := by omega
      rw [this]
      rfl

theorem enum_map_lookup (items : List (K × V)) (s : Nat)
    (hnd : (items.map Prod.fst).Nodup) :
    ∀ j, j < items.length →
      dlookup ((items.enumFrom s).map (fun p => (p.2.1, (p.1 : Int))))
        (nthd items j).1 = some ((s + j : Nat) : Int) := by
  induction items generalizing s with
  | nil => intro j hj; simp at hj
  | cons a l ih =>
    intro j hj
    rw [List.enumFrom_cons, List.map_cons]
    cases j with
    | zero =>
      show dlookup ((a.1, (s : Int)) :: _) a.1 = _
      rw [dlookup, if_pos rfl]
      rfl
    | succ j =>
      have hjl : j < l.length := by simpa using hj
      have hne : a.1 ≠ (nthd l j).1 := by
        intro hx
        exact (List.nodup_cons.1 hnd).1
          (hx ▸ List.mem_map_of_mem Prod.fst (nthd_mem l j hjl))
      show dlookup ((a.1, (s : Int)) :: _) (nthd l j).1 = _
      rw [dlookup, if_neg hne, ih (s + 1) (List.nodup_cons.1 hnd).2 j hjl]
      have : s + 1 + j = s + (j + 1) := by omega
      rw [this]

theorem WF_start (items : List (K × V)) (f : V → ℤ) (r : Bool)
    (hnd : (items.map Prod.fst).Nodup) :
    WF { key := f, reverse := r, heap_items := items,
         handle_to_position_mapping := build_mapping items : IndexedHeap K V } := by
  rw [WF, build_mapping_eq items hnd]
  refine ⟨?_, ?_, ?_, ?_⟩
  · intro e he
    rcases enum_map_mem items 0 e he with ⟨jj, hjj, hejj⟩
    subst hejj
    refine ⟨by simp, ?_, ?_⟩
    · show ((((0 + jj : Nat)) : Int)).toNat < items.length
      simpa using hjj
    · show (nthd items (((0 + jj : Nat) : Int)).toNat).1 = (nthd items jj).1
      rw [Int.toNat_natCast, Nat.zero_add]
  · intro j hj
    have := enum_map_lookup items 0 hnd j hj
    rwa [Nat.zero_add] at this
  · rw [enum_map_keys]
    exact hnd
  · simp [List.length_map, List.enumFrom_length]

theorem WF_of_items (items : List (K × V)) (f : V → ℤ) (r : Bool)
    (hnd : (items.map Prod.fst).Nodup) : WF (of_items items f r) := by
  unfold of_items create_heap
  exact WF_foldl_heapify_down _ _ (WF_start items f r hnd)

/-! ### Well-formedness of the mutating operations -/

theorem WF_set_slot (h : IndexedHeap K V) (s : Nat) (k : K) (v : V)
    (hs : s < h.heap_items.length) (hk : (nthd h.heap_items s).1 = k) (hwf : WF h) :
    WF { h with heap_items := h.heap_items.set s (k, v) } := by
  have hnth : ∀ x, x < h.heap_items.length →
      (nthd (h.heap_items.set s (k, v)) x).1 = (nthd h.heap_items x).1 := by
    intro x hx
    by_cases hxs : x = s
    · rw [hxs, nthd_set_self _ _ _ hs, ← hk]
    · rw [nthd_set_ne _ _ _ _ (fun hc => hxs hc.symm)]
  refine ⟨?_, ?_, hwf.2.2.1, by simpa using hwf.2.2.2⟩
  · intro e he
    obtain ⟨h0e, hse, hke⟩ := hwf.1 e he
    exact ⟨h0e, by simpa using hse, by rw [hnth _ hse]; exact hke⟩
  · intro j hj
    rw [List.length_set] at hj
    show dlookup h.handle_to_position_mapping (nthd (h.heap_items.set s (k, v)) j).1 = _
    rw [hnth _ hj]
    exact hwf.2.1 j hj

theorem WF_modify (h : IndexedHeap K V) (k : K) (v : V) (hwf : WF h) :
    WF (modify h k v) := by
  rw [modify]
  cases hlook : dlookup h.handle_to_position_mapping k with
  | none => exact hwf
  | some idx =>
    obtain ⟨h0, hs, hk⟩ := wf_lookup_slot h hwf k idx hlook
    have hpy : py_index h.heap_items.length idx = idx.toNat := py_index_nonneg _ _ h0
    simp only [hpy]
    have hwf1 := WF_set_slot h idx.toNat k v hs hk hwf
    by_cases hord : are_keys_in_order h (h.key (nthd h.heap_items idx.toNat).2) (h.key v)
      = true
    · rw [if_pos hord]
      exact WF_heapify_down _ _ hwf1
    · rw [if_neg hord]
      refine WF_heapify_up _ _ (by simpa using hs) hwf1

theorem WF_add_item (h : IndexedHeap K V) (k : K) (v : V)
    (habs : dlookup h.handle_to_position_mapping k = none) (hwf : WF h) :
    WF (add_item h k v) := by
  simp only [add_item]
  have hlen : (h.heap_items ++ [(k, v)]).length = h.heap_items.length + 1 := by simp
  rw [hlen]
  have hkeys : k ∉ h.handle_to_position_mapping.map Prod.fst :=
    (dlookup_eq_none_iff _ _).1 habs
  have hwf1 : WF { h with
      heap_items := h.heap_items ++ [(k, v)]
      handle_to_position_mapping :=
        dinsert h.handle_to_position_mapping k
          ((h.heap_items.length + 1 - 1 : Nat) : Int) } := by
    have hidx : (h.heap_items.length + 1 - 1 : Nat) = h.heap_items.length := by omega
    rw [hidx]
    refine ⟨?_, ?_, keys_dinsert_nodup _ _ _ hwf.2.2.1, ?_⟩
    · intro e he
      rcases mem_dinsert _ _ _ _ hwf.2.2.1 he with hx | ⟨he2, hne⟩
      · subst hx
        refine ⟨by simp, by simp, ?_⟩
        show (nthd (h.heap_items ++ [(k, v)])
          ((h.heap_items.length : Nat) : Int).toNat).1 = k
        rw [Int.toNat_natCast, nthd_append_last]
      · obtain ⟨h0e, hse, hke⟩ := hwf.1 e he2
        refine ⟨h0e, by simp; omega, ?_⟩
        rw [nthd_append_left _ _ _ hse]
        exact hke
    · intro j hj
      rw [List.length_append, List.length_cons, List.length_nil] at hj
      by_cases hjn : j = h.heap_items.length
      · rw [hjn, nthd_append_last, dlookup_dinsert_self]
      · have hjlt : j < h.heap_items.length := by omega
        rw [nthd_append_left _ _ _ hjlt]
        have hne : (nthd h.heap_items j).1 ≠ k := by
          intro hx
          rw [← hx] at habs
          rw [hwf.2.1 j hjlt] at habs
          cases habs
        rw [dlookup_dinsert_ne _ _ _ _ hne]
        exact hwf.2.1 j hjlt
    · rw [length_dinsert, habs]
      simp [hwf.2.2.2]
  refine WF_heapify_up _ _ ?_ hwf1
  simp

theorem update_eq_foldl_set (h : IndexedHeap K V) (ps : List (K × V)) :
    update h ps = ps.foldl (fun acc p => set_item acc p.1 p.2) h := rfl

theorem WF_set_item (h : IndexedHeap K V) (k : K) (v : V) (hwf : WF h) :
    WF (set_item h k v) := by
  rw [set_item]
  by_cases hc : contains_key h k = true
  · rw [if_pos hc]
    exact WF_modify h k v hwf
  · rw [if_neg hc]
    refine WF_add_item h k v ?_ hwf
    cases hl : dlookup h.handle_to_position_mapping k with
    | none => rfl
    | some x =>
      rw [contains_key, hl] at hc
      simp at hc

theorem WF_update (h : IndexedHeap K V) (ps : List (K × V)) (hwf : WF h) :
    WF (update h ps) := by
  rw [update_eq_foldl_set]
  induction ps generalizing h with
  | nil => exact hwf
  | cons p ps ih => exact ih _ (WF_set_item h p.1 p.2 hwf)

theorem swap_heap_items_neg (h : IndexedHeap K V) (i : Nat) :
    (swap h (i : Int) (-1)).heap_items =
      (h.heap_items.set i (nthd h.heap_items (h.heap_items.length - 1))).set
        (h.heap_items.length - 1) (nthd h.heap_items i) := by
  simp only [swap, py_index_coe, py_index_neg_one]

theorem swap_mapping_neg (h : IndexedHeap K V) (i : Nat) :
    (swap h (i : Int) (-1)).handle_to_position_mapping =
      dinsert
        (dinsert h.handle_to_position_mapping (nthd h.heap_items i).1 (-1))
        (nthd h.heap_items (h.heap_items.length - 1)).1 (i : Int) := by
  rw [swap_mapping, py_index_coe, py_index_neg_one]

/-- The common removal pattern of `__delitem__` and `pop_first`: swap slot `i`
with the last slot, delete slot `i`'s key from the dict, drop the last array
slot.  This restores the bijection invariant (before the final sift). -/
theorem WF_remove_swap (h : IndexedHeap K V) (i : Nat)
    (hi : i < h.heap_items.length) (hwf : WF h) :
    WF { swap h (i : Int) (-1) with
         handle_to_position_mapping :=
           ddelete (swap h (i : Int) (-1)).handle_to_position_mapping
             (nthd h.heap_items i).1
         heap_items := (swap h (i : Int) (-1)).heap_items.dropLast } := by
  have hn : 0 < h.heap_items.length := by omega
  have hla : dlookup h.handle_to_position_mapping (nthd h.heap_items i).1 = some (i : Int) :=
    hwf.2.1 i hi
  have hlb : dlookup h.handle_to_position_mapping
      (nthd h.heap_items (h.heap_items.length - 1)).1
      = some ((h.heap_items.length - 1 : Nat) : Int) := hwf.2.1 _ (by omega)
  have hnd : (h.handle_to_position_mapping.map Prod.fst).Nodup := hwf.2.2.1
  have hitems2 : (swap h (i : Int) (-1)).heap_items.dropLast =
      (h.heap_items.set i (nthd h.heap_items (h.heap_items.length - 1))).dropLast := by
    rw [swap_heap_items_neg]
    exact dropLast_set_last_of_eq _ _ _ (by simp)
  have hlen2 : (swap h (i : Int) (-1)).heap_items.dropLast.length
      = h.heap_items.length - 1 := by
    rw [hitems2, List.length_dropLast, List.length_set]
  rcases Nat.lt_or_ge i (h.heap_items.length - 1) with hB | hA
  · -- the removed slot is not the last one
    have hba : (nthd h.heap_items (h.heap_items.length - 1)).1
        ≠ (nthd h.heap_items i).1 := by
      intro hx
      have := wf_slot_inj h hwf _ _ (by omega) hi hx
      omega
    have hnth2 : ∀ x, x < h.heap_items.length - 1 → x ≠ i →
        nthd (swap h (i : Int) (-1)).heap_items.dropLast x = nthd h.heap_items x := by
      intro x hx hxi
      rw [hitems2, nthd_dropLast _ _ (by simpa using hx),
        nthd_set_ne _ _ _ _ (fun hc => hxi hc.symm)]
    have hnthi : nthd (swap h (i : Int) (-1)).heap_items.dropLast i
        = nthd h.heap_items (h.heap_items.length - 1) := by
      rw [hitems2, nthd_dropLast _ _ (by simpa using hB), nthd_set_self _ _ _ hi]
    have hnd1 : ((dinsert h.handle_to_position_mapping (nthd h.heap_items i).1
        (-1)).map Prod.fst).Nodup := keys_dinsert_nodup _ _ _ hnd
    have hnd2 : (((swap h (i : Int) (-1)).handle_to_position_mapping).map Prod.fst).Nodup := by
      rw [swap_mapping_neg]
      exact keys_dinsert_nodup _ _ _ hnd1
    refine ⟨?_, ?_, ?_, ?_⟩
    · intro e he
      have he' := mem_ddelete _ _ _ hnd2 he
      rw [swap_mapping_neg] at he'
      rcases mem_dinsert _ _ _ _ hnd1 he'.1 with hb | ⟨he1, hneb⟩
      · refine ⟨by rw [hb]; simp, ?_, ?_⟩
        · rw [hb, hlen2]
          simpa using hB
        · rw [hb]
          show (nthd (swap h (i : Int) (-1)).heap_items.dropLast
            ((i : Int)).toNat).1 = _
          rw [Int.toNat_natCast, hnthi]
      · rcases mem_dinsert _ _ _ _ hnd he1 with ha | ⟨he2, hnea⟩
        · exact absurd (by rw [ha]) he'.2
        · obtain ⟨h0e, hse, hke⟩ := hwf.1 e he2
          have hsi : e.2.toNat ≠ i := by
            intro hc
            exact he'.2 (by rw [← hke, hc])
          have hsl : e.2.toNat ≠ h.heap_items.length - 1 := by
            intro hc
            exact hneb (by rw [← hke, hc])
          refine ⟨h0e, by rw [hlen2]; omega, ?_⟩
          rw [hnth2 _ (by omega) hsi]
          exact hke
    · intro j hj
      rw [hlen2] at hj
      by_cases hji : j = i
      · rw [hji, hnthi]
        rw [dlookup_ddelete_ne _ _ _ hba, swap_mapping_neg, dlookup_dinsert_self]
      · rw [hnth2 j hj hji]
        have hka : (nthd h.heap_items j).1 ≠ (nthd h.heap_items i).1 := by
          intro hx
          exact hji (wf_slot_inj h hwf j i (by omega) hi hx)
        have hkb : (nthd h.heap_items j).1
            ≠ (nthd h.heap_items (h.heap_items.length - 1)).1 := by
          intro hx
          have := wf_slot_inj h hwf j _ (by omega) (by omega) hx
          omega
        rw [dlookup_ddelete_ne _ _ _ hka, swap_mapping_neg,
          dlookup_dinsert_ne _ _ _ _ hkb, dlookup_dinsert_ne _ _ _ _ hka]
        exact hwf.2.1 j (by omega)
    · exact (ddelete_sublist _ _).map Prod.fst |>.nodup hnd2
    · have hsome1 : (dlookup (dinsert h.handle_to_position_mapping
          (nthd h.heap_items i).1 (-1))
          (nthd h.heap_items (h.heap_items.length - 1)).1).isSome = true := by
        rw [dlookup_dinsert_ne _ _ _ _ hba, hlb]
        rfl
      have hsome2 : (dlookup (swap h (i : Int) (-1)).handle_to_position_mapping
          (nthd h.heap_items i).1).isSome = true := by
        rw [swap_mapping_neg, dlookup_dinsert_ne _ _ _ _ (Ne.symm hba),
          dlookup_dinsert_self]
        rfl
      show (ddelete (swap h (i : Int) (-1)).handle_to_position_mapping
        (nthd h.heap_items i).1).length = _
      rw [length_ddelete_present _ _ hsome2, hlen2, swap_mapping_neg,
        length_dinsert, length_dinsert, hsome1, hla]
      simp [hwf.2.2.2]
  · -- the removed slot is the last one
    have hieq : i = h.heap_items.length - 1 := by omega
    have hab : nthd h.heap_items (h.heap_items.length - 1) = nthd h.heap_items i := by
      rw [hieq]
    have hmap1 : (swap h (i : Int) (-1)).handle_to_position_mapping
        = dinsert h.handle_to_position_mapping (nthd h.heap_items i).1 (i : Int) := by
      rw [swap_mapping_neg, hab, dinsert_dinsert_self]
    have hitems2' : (swap h (i : Int) (-1)).heap_items.dropLast
        = h.heap_items.dropLast := by
      rw [hitems2, hab, set_nthd_self _ _ hi]
    have hnd1 : (((swap h (i : Int) (-1)).handle_to_position_mapping).map Prod.fst).Nodup := by
      rw [hmap1]
      exact keys_dinsert_nodup _ _ _ hnd
    refine ⟨?_, ?_, ?_, ?_⟩
    · intro e he
      have he' := mem_ddelete _ _ _ hnd1 he
      rw [hmap1] at he'
      rcases mem_dinsert _ _ _ _ hnd he'.1 with ha | ⟨he2, hnea⟩
      · exact absurd (by rw [ha]) he'.2
      · obtain ⟨h0e, hse, hke⟩ := hwf.1 e he2
        have hsi : e.2.toNat ≠ i := by
          intro hc
          exact he'.2 (by rw [← hke, hc])
        refine ⟨h0e, by rw [hlen2]; omega, ?_⟩
        rw [hitems2', nthd_dropLast _ _ (by omega)]
        exact hke
    · intro j hj
      rw [hlen2] at hj
      have hji : j ≠ i := by omega
      rw [hitems2', nthd_dropLast _ _ (by omega)]
      have hka : (nthd h.heap_items j).1 ≠ (nthd h.heap_items i).1 := by
        intro hx
        exact hji (wf_slot_inj h hwf j i (by omega) hi hx)
      rw [dlookup_ddelete_ne _ _ _ hka, hmap1, dlookup_dinsert_ne _ _ _ _ hka]
      exact hwf.2.1 j (by omega)
    · exact (ddelete_sublist _ _).map Prod.fst |>.nodup hnd1
    · have hsome2 : (dlookup (swap h (i : Int) (-1)).handle_to_position_mapping
          (nthd h.heap_items i).1).isSome = true := by
        rw [hmap1, dlookup_dinsert_self]
        rfl
      show (ddelete (swap h (i : Int) (-1)).handle_to_position_mapping
        (nthd h.heap_items i).1).length = _
      rw [length_ddelete_present _ _ hsome2, hlen2, hmap1, length_dinsert, hla]
      simp [hwf.2.2.2]

theorem WF_del_item (h : IndexedHeap K V) (k : K) (h' : IndexedHeap K V)
    (hwf : WF h) (hdel : del_item h k = some h') : WF h' := by
  rw [del_item] at hdel
  cases hlook : dlookup h.handle_to_position_mapping k with
  | none => rw [hlook] at hdel; cases hdel
  | some idx =>
    rw [hlook] at hdel
    obtain ⟨h0, hs, hk⟩ := wf_lookup_slot h hwf k idx hlook
    have hidx2 : idx = ((idx.toNat : Nat) : Int) := by omega
    injection hdel with hh
    rw [← hh]
    show WF (heapify_down
      { swap h idx (-1) with
        handle_to_position_mapping :=
          ddelete (swap h idx (-1)).handle_to_position_mapping k
        heap_items := (swap h idx (-1)).heap_items.dropLast }
      (py_index h.heap_items.length idx))
    rw [hidx2, ← hk, py_index_coe]
    exact WF_heapify_down _ _ (WF_remove_swap h idx.toNat hs hwf)

theorem WF_pop_first (h : IndexedHeap K V) (hwf : WF h) : WF (pop_first h).2 := by
  rcases hitems : h.heap_items with _ | ⟨a, rest⟩
  · rw [pop_first_empty h hitems]
    exact hwf
  · have hne : h.heap_items ≠ [] := by rw [hitems]; exact List.cons_ne_nil a rest
    have hn : 0 < h.heap_items.length := List.length_pos.2 hne
    rw [pop_first_snd_eq h hne]
    show WF (heapify_down
      { swap h ((0 : Nat) : Int) (-1) with
        handle_to_position_mapping :=
          ddelete (swap h ((0 : Nat) : Int) (-1)).handle_to_position_mapping
            (nthd (swap h ((0 : Nat) : Int) (-1)).heap_items
              ((swap h ((0 : Nat) : Int) (-1)).heap_items.length - 1)).1
        heap_items := (swap h ((0 : Nat) : Int) (-1)).heap_items.dropLast } 0)
    have hkey : (nthd (swap h ((0 : Nat) : Int) (-1)).heap_items
        ((swap h ((0 : Nat) : Int) (-1)).heap_items.length - 1)).1
        = (nthd h.heap_items 0).1 := by
      rw [swap_length, swap_heap_items_neg,
        nthd_set_self _ _ _ (by rw [List.length_set]; omega)]
    rw [hkey]
    exact WF_heapify_down _ _ (WF_remove_swap h 0 hn hwf)

/-- Every heap reachable through the public interface is well-formed:
spec §3 invariants 1, 2 and 4. -/
theorem reachable_WF (h : IndexedHeap K V) (hr : Reachable h) : WF h := by
  induction hr with
  | init items f r hnd => exact WF_of_items items f r hnd
  | set h k v _ ih => exact WF_set_item h k v ih
  | upd h ps _ ih => exact WF_update h ps ih
  | del h k h' _ hdel ih => exact WF_del_item h k h' ih hdel
  | pop h _ ih => exact WF_pop_first h ih

/-! ### `set` (subscript assignment / `_modify` / `_add_item`) -/

theorem wf_items_keys_nodup (h : IndexedHeap K V) (hwf : WF h) :
    (h.heap_items.map Prod.fst).Nodup := by
  rw [List.nodup_iff_injective_getElem]
  rintro ⟨a, ha⟩ ⟨b, hb⟩ hab
  simp only [List.getElem_map] at hab
  have ha' : a < h.heap_items.length := by simpa using ha
  have hb' : b < h.heap_items.length := by simpa using hb
  have hab' : a = b := by
    refine wf_slot_inj h hwf a b ha' hb' ?_
    rw [nthd_eq_getElem _ _ ha', nthd_eq_getElem _ _ hb']
    exact hab
  simpa using hab'

/-- `__getitem__` agrees with association-list lookup on the heap array. -/
theorem get_item_eq (h : IndexedHeap K V) (hwf : WF h) (k : K) :
    get_item h k = dlookup h.heap_items k := by
  rw [get_item]
  cases hl : dlookup h.handle_to_position_mapping k with
  | none =>
    cases hl2 : dlookup h.heap_items k with
    | none => rfl
    | some v =>
      have hm := dlookup_mem _ _ _ hl2
      rcases (mem_iff_nthd _ _).1 hm with ⟨j, hj, hnth⟩
      have hslot := hwf.2.1 j hj
      rw [hnth] at hslot
      rw [hslot] at hl
      cases hl
  | some idx =>
    obtain ⟨h0, hs, hk⟩ := wf_lookup_slot h hwf k idx hl
    show some (nthd h.heap_items (py_index h.heap_items.length idx)).2
      = dlookup h.heap_items k
    rw [py_index_nonneg _ _ h0]
    have hmem : (k, (nthd h.heap_items idx.toNat).2) ∈ h.heap_items := by
      have := nthd_mem h.heap_items idx.toNat hs
      rwa [show nthd h.heap_items idx.toNat
        = (k, (nthd h.heap_items idx.toNat).2) from by rw [← hk]] at this
    rw [dlookup_of_mem_nodup _ _ _ (wf_items_keys_nodup h hwf) hmem]

theorem are_keys_in_order_mk (h : IndexedHeap K V) (l : List (K × V))
    (m : List (K × Int)) (x y : ℤ) :
    are_keys_in_order { h with heap_items := l, handle_to_position_mapping := m } x y
      = are_keys_in_order h x y := rfl

theorem HeapOrdered_set_item (h : IndexedHeap K V) (k : K) (v : V)
    (hwf : WF h) (hord : HeapOrdered h) : HeapOrdered (set_item h k v) := by
  rw [set_item]
  by_cases hc : contains_key h k = true
  · rw [if_pos hc, modify]
    cases hlook : dlookup h.handle_to_position_mapping k with
    | none =>
      rw [contains_key, hlook] at hc
      simp at hc
    | some idx =>
      obtain ⟨h0, hs, hk⟩ := wf_lookup_slot h hwf k idx hlook
      simp only [py_index_nonneg _ _ h0]
      set i := idx.toNat with hidef
      set h1 : IndexedHeap K V :=
        { h with heap_items := h.heap_items.set i (k, v) } with hh1
      have hlen1 : h1.heap_items.length = h.heap_items.length := by
        rw [hh1]
        simp
      have hkeyi : get_key_by_index h1 i = h.key v := by
        rw [hh1]
        unfold get_key_by_index
        show h.key (nthd (h.heap_items.set i (k, v)) i).2 = h.key v
        rw [nthd_set_self _ _ _ hs]
      have hkeyo : ∀ x, x ≠ i → get_key_by_index h1 x = get_key_by_index h x := by
        intro x hx
        rw [hh1]
        unfold get_key_by_index
        show h.key (nthd (h.heap_items.set i (k, v)) x).2 = _
        rw [nthd_set_ne _ _ _ _ (fun hcx => hx hcx.symm)]
      have haki : ∀ x y, are_keys_in_order h1 x y = are_keys_in_order h x y := by
        intro x y
        rw [hh1, are_keys_in_order_mk]
      have hold : get_key_by_index h i = h.key (nthd h.heap_items i).2 := rfl
      by_cases hdir : are_keys_in_order h (h.key (nthd h.heap_items i).2) (h.key v) = true
      · rw [if_pos hdir]
        refine heapify_down_restores h1 0 i (by omega) ⟨?_, ?_⟩
        · intro c hc' h0c _ hpi
          rw [hlen1] at hc'
          rw [haki]
          by_cases hci : c = i
          · rw [hci] at h0c ⊢
            rw [hkeyi, hkeyo ((i - 1) / 2) (by omega)]
            refine order_trans h _ _ _ ?_ hdir
            exact hord i (by omega) h0c (by omega)
          · rw [hkeyo _ hpi, hkeyo _ hci]
            exact hord c hc' h0c (by omega)
        · intro h0i _ c hc' h0c hpc
          rw [hlen1] at hc'
          rw [haki, hkeyo _ (by omega), hkeyo _ (by omega)]
          refine order_trans h _ (get_key_by_index h i) _ ?_ ?_
          · exact hord i hs h0i (by omega)
          · have hx := hord c hc' h0c (by omega)
            rwa [hpc] at hx
      · rw [if_neg hdir]
        have hd2 : are_keys_in_order h (h.key v) (h.key (nthd h.heap_items i).2)
            = true := by
          refine order_total h _ _ ?_
          rw [← Bool.not_eq_true]
          exact hdir
        refine heapify_up_restores h1 i (by omega) ⟨?_, ?_⟩
        · intro c hc' h0c hci
          rw [hlen1] at hc'
          rw [haki]
          by_cases hpi : (c - 1) / 2 = i
          · rw [hpi, hkeyi, hkeyo _ hci]
            refine order_trans h _ _ _ hd2 ?_
            have hx := hord c hc' h0c (by omega)
            rw [hpi] at hx
            exact hx
          · rw [hkeyo _ hpi, hkeyo _ hci]
            exact hord c hc' h0c (by omega)
        · intro h0i c hc' h0c hpc
          rw [hlen1] at hc'
          rw [haki, hkeyo _ (by omega), hkeyo _ (by omega)]
          refine order_trans h _ (get_key_by_index h i) _ ?_ ?_
          · exact hord i hs h0i (by omega)
          · have hx := hord c hc' h0c (by omega)
            rwa [hpc] at hx
  · rw [if_neg hc]
    simp only [add_item]
    set n := h.heap_items.length with hndef
    have hlenapp : (h.heap_items ++ [(k, v)]).length = n + 1 := by simp
    rw [hlenapp]
    set h1 : IndexedHeap K V :=
      { h with
        heap_items := h.heap_items ++ [(k, v)]
        handle_to_position_mapping :=
          dinsert h.handle_to_position_mapping k ((n + 1 - 1 : Nat) : Int) } with hh1
    have hlen1 : h1.heap_items.length = n + 1 := by
      rw [hh1]
      simp
    have hkeyo : ∀ x, x < n → get_key_by_index h1 x = get_key_by_index h x := by
      intro x hx
      rw [hh1]
      unfold get_key_by_index
      show h.key (nthd (h.heap_items ++ [(k, v)]) x).2 = _
      rw [nthd_append_left _ _ _ hx]
    have haki : ∀ x y, are_keys_in_order h1 x y = are_keys_in_order h x y := by
      intro x y
      rw [hh1, are_keys_in_order_mk]
    refine heapify_up_restores h1 (n + 1 - 1) (by omega) ⟨?_, ?_⟩
    · intro c hc' h0c hci
      rw [hlen1] at hc'
      have hcn : c < n := by omega
      rw [haki, hkeyo _ hcn, hkeyo _ (by omega)]
      exact hord c (by omega) h0c (by omega)
    · intro h0i c hc' h0c hpc
      rw [hlen1] at hc'
      omega

/-! ### Stored contents of the heap -/

theorem dlookup_append_singleton {A : Type} (l : List (K × A)) (k k' : K) (v : A) :
    dlookup (l ++ [(k, v)]) k'
      = match dlookup l k' with
        | some w => some w
        | none => if k = k' then some v else none := by
  induction l with
  | nil => rfl
  | cons e l ih =>
    by_cases he : e.1 = k'
    · rw [List.cons_append, dlookup, if_pos he, dlookup, if_pos he]
    · rw [List.cons_append, dlookup, if_neg he, dlookup, if_neg he, ih]

theorem dlookup_set_slot (h : IndexedHeap K V) (i : Nat) (k : K) (v : V) (k' : K)
    (hi : i < h.heap_items.length) (hk : (nthd h.heap_items i).1 = k) (hwf : WF h) :
    dlookup (h.heap_items.set i (k, v)) k'
      = if k' = k then some v else dlookup h.heap_items k' := by
  have hwf1 := WF_set_slot h i k v hi hk hwf
  have hnd1 : ((h.heap_items.set i (k, v)).map Prod.fst).Nodup := by
    have := wf_items_keys_nodup _ hwf1
    simpa using this
  by_cases hkk : k' = k
  · rw [if_pos hkk, hkk]
    refine dlookup_of_mem_nodup _ _ _ hnd1 ?_
    have := nthd_mem (h.heap_items.set i (k, v)) i (by simpa using hi)
    rwa [nthd_set_self _ _ _ hi] at this
  · rw [if_neg hkk]
    cases hl : dlookup h.heap_items k' with
    | some w =>
      have hm := dlookup_mem _ _ _ hl
      rcases (mem_iff_nthd _ _).1 hm with ⟨j, hj, hnth⟩
      have hji : j ≠ i := by
        intro hc
        rw [hc] at hnth
        exact hkk (by rw [← hk, hnth])
      refine dlookup_of_mem_nodup _ _ _ hnd1 ?_
      rw [← hnth, ← nthd_set_ne h.heap_items i j (k, v) (fun hc => hji hc.symm)]
      exact nthd_mem _ _ (by simpa using hj)
    | none =>
      cases hl2 : dlookup (h.heap_items.set i (k, v)) k' with
      | none => rfl
      | some w =>
        have hm := dlookup_mem _ _ _ hl2
        rcases (mem_iff_nthd _ _).1 hm with ⟨j, hj, hnth⟩
        rw [List.length_set] at hj
        by_cases hji : j = i
        · rw [hji, nthd_set_self _ _ _ hi] at hnth
          exact absurd (congrArg Prod.fst hnth).symm hkk
        · rw [nthd_set_ne _ _ _ _ (fun hc => hji hc.symm)] at hnth
          have : dlookup h.heap_items k' = some w := by
            refine dlookup_of_mem_nodup _ _ _ (wf_items_keys_nodup h hwf) ?_
            rw [← hnth]
            exact nthd_mem _ _ hj
          rw [this] at hl
          cases hl
  
theorem dlookup_items_set_item (h : IndexedHeap K V) (k : K) (v : V) (k' : K)
    (hwf : WF h) :
    dlookup (set_item h k v).heap_items k'
      = if k' = k then some v else dlookup h.heap_items k' := by
  rw [set_item]
  by_cases hc : contains_key h k = true
  · rw [if_pos hc, modify]
    cases hlook : dlookup h.handle_to_position_mapping k with
    | none =>
      rw [contains_key, hlook] at hc
      simp at hc
    | some idx =>
      obtain ⟨h0, hs, hk⟩ := wf_lookup_slot h hwf k idx hlook
      simp only [py_index_nonneg _ _ h0]
      set h1 : IndexedHeap K V :=
        { h with heap_items := h.heap_items.set idx.toNat (k, v) } with hh1
      have hwf1 : WF h1 := WF_set_slot h idx.toNat k v hs hk hwf
      have hkeys1 : (h1.heap_items.map Prod.fst).Nodup := wf_items_keys_nodup _ hwf1
      have hbase : dlookup h1.heap_items k'
          = if k' = k then some v else dlookup h.heap_items k' :=
        dlookup_set_slot h idx.toNat k v k' hs hk hwf
      by_cases hdir : are_keys_in_order h (h.key (nthd h.heap_items idx.toNat).2)
          (h.key v) = true
      · rw [if_pos hdir, ← hbase]
        exact (dlookup_perm _ _ k' (heapify_down_perm h1 idx.toNat).symm hkeys1).symm
      · rw [if_neg hdir, ← hbase]
        refine (dlookup_perm _ _ k' (heapify_up_perm h1 idx.toNat ?_).symm hkeys1).symm
        show idx.toNat < (h.heap_items.set idx.toNat (k, v)).length
        simpa using hs
  · rw [if_neg hc]
    have habs : dlookup h.handle_to_position_mapping k = none := by
      cases hl : dlookup h.handle_to_position_mapping k with
      | none => rfl
      | some x =>
        rw [contains_key, hl] at hc
        simp at hc
    have hkabs : dlookup h.heap_items k = none := by
      cases hl2 : dlookup h.heap_items k with
      | none => rfl
      | some w =>
        rcases (mem_iff_nthd _ _).1 (dlookup_mem _ _ _ hl2) with ⟨j, hj, hnth⟩
        have hslot := hwf.2.1 j hj
        rw [hnth] at hslot
        rw [hslot] at habs
        cases habs
    simp only [add_item]
    set h1 : IndexedHeap K V :=
      { h with
        heap_items := h.heap_items ++ [(k, v)]
        handle_to_position_mapping :=
          dinsert h.handle_to_position_mapping k
            (((h.heap_items ++ [(k, v)]).length - 1 : Nat) : Int) } with hh1
    have hkeys1 : (h1.heap_items.map Prod.fst).Nodup := by
      rw [hh1]
      show ((h.heap_items ++ [(k, v)]).map Prod.fst).Nodup
      rw [List.map_append]
      rw [List.nodup_append]
      refine ⟨wf_items_keys_nodup h hwf, by simp, ?_⟩
      intro x hx hx2
      simp only [List.map_cons, List.map_nil, List.mem_singleton] at hx2
      rw [hx2] at hx
      exact (dlookup_eq_none_iff _ _).1 hkabs hx
    have hbase : dlookup h1.heap_items k'
        = if k' = k then some v else dlookup h.heap_items k' := by
      rw [hh1]
      show dlookup (h.heap_items ++ [(k, v)]) k' = _
      rw [dlookup_append_singleton]
      by_cases hkk : k' = k
      · rw [if_pos hkk, hkk, hkabs, if_pos rfl]
      · rw [if_neg hkk]
        cases hl : dlookup h.heap_items k' with
        | some w => rfl
        | none => rw [if_neg (fun hc => hkk hc.symm)]
    rw [← hbase]
    refine (dlookup_perm _ _ k' (heapify_up_perm h1 _ ?_).symm hkeys1).symm
    rw [hh1]
    show (h.heap_items ++ [(k, v)]).length - 1 < (h.heap_items ++ [(k, v)]).length
    simp

theorem dlookup_items_update :
    ∀ (ps : List (K × V)) (h : IndexedHeap K V) (k' : K), WF h →
      ((ps.map Prod.fst).Nodup) →
      dlookup (update h ps).heap_items k'
        = match dlookup ps k' with
          | some w => some w
          | none => dlookup h.heap_items k' := by
  intro ps
  induction ps with
  | nil => intro h k' _ _; rfl
  | cons p tl ih =>
    rintro h k' hwf hnd
    rcases p with ⟨k0, v0⟩
    have hstep : update h ((k0, v0) :: tl) = update (set_item h k0 v0) tl := by
      rw [update_eq_foldl_set, update_eq_foldl_set, List.foldl_cons]
    rw [hstep, ih (set_item h k0 v0) k' (WF_set_item h k0 v0 hwf)
      (List.nodup_cons.1 (by simpa using hnd)).2]
    have hset := dlookup_items_set_item h k0 v0 k' hwf
    by_cases hk : k0 = k'
    · have htl : dlookup tl k' = none := by
        rw [dlookup_eq_none_iff]
        intro hmem
        exact (List.nodup_cons.1 (by simpa using hnd)).1 (hk ▸ hmem)
      have hcons : dlookup ((k0, v0) :: tl) k' = some v0 := by
        rw [dlookup, if_pos hk]
      rw [htl, hset, if_pos hk.symm, hcons]
    · have hcons : dlookup ((k0, v0) :: tl) k' = dlookup tl k' := by
        rw [dlookup, if_neg hk]
      rw [hcons]
      cases hdl : dlookup tl k' with
      | some w => rfl
      | none =>
        rw [hset, if_neg (fun hc => hk hc.symm)]

theorem mem_iff_dlookup {A : Type} (l : List (K × A)) (x : K × A)
    (hnd : (l.map Prod.fst).Nodup) : x ∈ l ↔ dlookup l x.1 = some x.2 := by
  constructor
  · intro hx
    refine dlookup_of_mem_nodup _ _ _ hnd ?_
    simpa using hx
  · intro hx
    have := dlookup_mem _ _ _ hx
    simpa using this

/-- The contents-level part of `update` commutativity: permuted batches with
distinct keys produce heaps holding the same multiset of pairs. -/
theorem update_items_perm (h : IndexedHeap K V) (ps1 ps2 : List (K × V))
    (hwf : WF h) (hperm : ps1.Perm ps2) (hnd1 : (ps1.map Prod.fst).Nodup) :
    ((update h ps1).heap_items).Perm ((update h ps2).heap_items) := by
  have hnd2 : (ps2.map Prod.fst).Nodup := ((hperm.map Prod.fst).nodup_iff).1 hnd1
  have hw1 : WF (update h ps1) := WF_update h ps1 hwf
  have hw2 : WF (update h ps2) := WF_update h ps2 hwf
  have hk1 := wf_items_keys_nodup _ hw1
  have hk2 := wf_items_keys_nodup _ hw2
  have hfun : ∀ k', dlookup (update h ps1).heap_items k'
      = dlookup (update h ps2).heap_items k' := by
    intro k'
    rw [dlookup_items_update ps1 h k' hwf hnd1, dlookup_items_update ps2 h k' hwf hnd2,
      dlookup_perm ps1 ps2 k' hperm hnd1]
  refine (List.perm_ext_iff_of_nodup (hk1.of_map _) (hk2.of_map _)).2 ?_
  intro x
  rw [mem_iff_dlookup _ x hk1, mem_iff_dlookup _ x hk2, hfun]

end IndexedHeap

/-! ### The claims -/

open IndexedHeap

/-- C1: the claimed heap-order invariant FAILS after `remove`.  The public
sequence "construct `IndexedHeap({1: 1, 2: 9, 3: 2, 4: 10, 5: 11, 6: 3})`,
then `del heap[4]`" succeeds, yet leaves the array `[1, 9, 2, 3, 11]` (by
ordering key), in which slot 3 (key 3) violates heap order with its parent
slot 1 (key 9): `__delitem__` swaps the last slot in and only sifts DOWN,
never up, so the moved-in element can end up above-order of its new parent. -/
theorem C1_remove_breaks_heap_order :
    (del_item c1_heap 4).isSome = true ∧
    ¬ HeapOrdered ((del_item c1_heap 4).getD default) := by
  constructor
  · decide
  · decide

/-- C2: `sort` on a heap built from any finite integer map (identity key
function) drains the heap completely, yielding exactly the input pairs,
sorted by value ascending for a min-heap and descending for a max-heap;
the output length is the heap's size when `sort` begins, and the drained
heap has size 0. -/
theorem C2_sort_correct (pairs : List (ℤ × ℤ)) (rev : Bool)
    (hnd : (pairs.map Prod.fst).Nodup) :
    ((sort (of_items (pairs.map fun p => ((some p.1 : Option ℤ), p.2))
        (fun v => v) rev)).1).Perm
      (pairs.map fun p => ((some p.1 : Option ℤ), p.2)) ∧
    (sort (of_items (pairs.map fun p => ((some p.1 : Option ℤ), p.2))
        (fun v => v) rev)).1.length
      = size (of_items (pairs.map fun p => ((some p.1 : Option ℤ), p.2))
          (fun v => v) rev) ∧
    size (sort (of_items (pairs.map fun p => ((some p.1 : Option ℤ), p.2))
        (fun v => v) rev)).2 = 0 ∧
    (rev = false → List.Pairwise (fun a b => a.2 ≤ b.2)
      (sort (of_items (pairs.map fun p => ((some p.1 : Option ℤ), p.2))
        (fun v => v) rev)).1) ∧
    (rev = true → List.Pairwise (fun a b => b.2 ≤ a.2)
      (sort (of_items (pairs.map fun p => ((some p.1 : Option ℤ), p.2))
        (fun v => v) rev)).1) := by
  have hordH := of_items_ordered (pairs.map fun p => ((some p.1 : Option ℤ), p.2))
    (fun v => v) rev
  have hsome : ∀ p ∈ (of_items (pairs.map fun p => ((some p.1 : Option ℤ), p.2))
      (fun v => v) rev).heap_items, p.1.isSome = true := by
    intro p hp
    have hpl := (of_items_perm _ _ _).subset hp
    rcases List.mem_map.1 hpl with ⟨q, _, hq⟩
    rw [← hq]
    rfl
  have hmain := sort_fuel_spec
    ((of_items (pairs.map fun p => ((some p.1 : Option ℤ), p.2))
        (fun v => v) rev).heap_items.length + 1)
    (of_items (pairs.map fun p => ((some p.1 : Option ℤ), p.2)) (fun v => v) rev)
    hordH hsome (by omega)
  have hsorteq : sort (of_items (pairs.map fun p => ((some p.1 : Option ℤ), p.2))
      (fun v => v) rev)
      = sort_fuel ((of_items (pairs.map fun p => ((some p.1 : Option ℤ), p.2))
          (fun v => v) rev).heap_items.length + 1)
        (of_items (pairs.map fun p => ((some p.1 : Option ℤ), p.2)) (fun v => v) rev) :=
    rfl
  rw [hsorteq]
  obtain ⟨hperm, hnil, hpw⟩ := hmain
  refine ⟨hperm.trans (of_items_perm _ _ _), ?_, ?_, ?_, ?_⟩
  · rw [hperm.length_eq]
    rfl
  · rw [size, hnil]
    rfl
  · intro hrev
    refine hpw.imp ?_
    intro a b hab
    rw [are_keys_in_order, of_items_reverse, hrev, if_neg (by simp),
      of_items_key] at hab
    simpa using hab
  · intro hrev
    refine hpw.imp ?_
    intro a b hab
    rw [are_keys_in_order, of_items_reverse, hrev, if_pos rfl,
      of_items_key] at hab
    simpa using hab

/-- C2 witness: the spec's own fixture, reverse false. -/
theorem C2_sort_correct_witness :
    (([((1 : ℤ), (4 : ℤ)), (2, 2), (3, 3), (4, 1), (5, 5)].map Prod.fst).Nodup) ∧
    ((sort (of_items ([((1 : ℤ), (4 : ℤ)), (2, 2), (3, 3), (4, 1), (5, 5)].map
          fun p => ((some p.1 : Option ℤ), p.2)) (fun v => v) false)).1).Perm
      ([((1 : ℤ), (4 : ℤ)), (2, 2), (3, 3), (4, 1), (5, 5)].map
        fun p => ((some p.1 : Option ℤ), p.2)) :=
  ⟨by decide,
    (C2_sort_correct [((1 : ℤ), (4 : ℤ)), (2, 2), (3, 3), (4, 1), (5, 5)] false
      (by decide)).1⟩

/-- C3: every reachable heap satisfies the bijection invariant — the dict
maps a key to `i` exactly when slot `i` (in range) holds that key — and the
dict entry count, the array length and the reported size all agree. -/
theorem C3_bijection {K V : Type} [DecidableEq K] [Inhabited K] [Inhabited V]
    (h : IndexedHeap K V) (hr : Reachable h) :
    (∀ (k : K) (i : Int),
      dlookup h.handle_to_position_mapping k = some i ↔
        (0 ≤ i ∧ i.toNat < h.heap_items.length ∧ (nthd h.heap_items i.toNat).1 = k)) ∧
    h.handle_to_position_mapping.length = h.heap_items.length ∧
    h.heap_items.length = size h := by
  have hwf := reachable_WF h hr
  refine ⟨?_, hwf.2.2.2, rfl⟩
  intro k i
  constructor
  · exact wf_lookup_slot h hwf k i
  · rintro ⟨h0, hs, hk⟩
    have := hwf.2.1 i.toNat hs
    rw [hk] at this
    rw [this]
    congr 1
    omega

/-- C3 witness: the constructed spec fixture is reachable and satisfies the
bijection. -/
theorem C3_bijection_witness :
    Reachable example_heap ∧
    ((∀ (k : ℤ) (i : Int),
      dlookup example_heap.handle_to_position_mapping k = some i ↔
        (0 ≤ i ∧ i.toNat < example_heap.heap_items.length ∧
          (nthd example_heap.heap_items i.toNat).1 = k)) ∧
    example_heap.handle_to_position_mapping.length = example_heap.heap_items.length ∧
    example_heap.heap_items.length = size example_heap) :=
  ⟨Reachable.init [(1, 4), (2, 2), (3, 3), (4, 1), (5, 5)] (fun v => v) false (by decide),
    C3_bijection example_heap
      (Reachable.init [(1, 4), (2, 2), (3, 3), (4, 1), (5, 5)] (fun v => v) false
        (by decide))⟩

/-- C4: `get`/`remove` fail (raise `KeyNotFound`, embedded as `none`) exactly
when the key is absent; the failing lookup is the operation's first step, so
a failed call leaves the heap untouched (the embedding returns no new heap:
the `none` branch is taken before any state is written in the source). -/
theorem C4_absent_key_failures {K V : Type} [DecidableEq K] [Inhabited K] [Inhabited V]
    (h : IndexedHeap K V) (k : K) :
    (get_item h k = none ↔ contains_key h k = false) ∧
    (del_item h k = none ↔ contains_key h k = false) := by
  constructor
  · rw [get_item, contains_key]
    cases dlookup h.handle_to_position_mapping k <;> simp
  · rw [del_item, contains_key]
    cases dlookup h.handle_to_position_mapping k <;> simp

/-- C5: on a well-formed ordered heap, `set` stores the new value (a
subsequent `get` returns it), restores the heap-order invariant, keeps the
structure well-formed, and dispatches exactly as the source does: `_modify`
(one comparison choosing a single sift direction) when the key is present,
`_add_item` (append + sift up) when it is absent. -/
theorem C5_set_upsert {K V : Type} [DecidableEq K] [Inhabited K] [Inhabited V]
    (h : IndexedHeap K V) (k : K) (v : V) (hwf : WF h) (hord : HeapOrdered h) :
    get_item (set_item h k v) k = some v ∧
    HeapOrdered (set_item h k v) ∧
    WF (set_item h k v) ∧
    (contains_key h k = true → set_item h k v = modify h k v) ∧
    (contains_key h k = false → set_item h k v = add_item h k v) := by
  refine ⟨?_, HeapOrdered_set_item h k v hwf hord, WF_set_item h k v hwf, ?_, ?_⟩
  · rw [get_item_eq _ (WF_set_item h k v hwf), dlookup_items_set_item h k v k hwf,
      if_pos rfl]
  · intro hc
    rw [set_item, if_pos hc]
  · intro hc
    rw [set_item, if_neg (by rw [hc]; simp)]

/-- C5 witness: update key 2 of a small concrete min-heap. -/
theorem C5_set_upsert_witness :
    (WF (of_items [((1 : ℤ), (5 : ℤ)), (2, 7)] (fun v => v) false) ∧
      HeapOrdered (of_items [((1 : ℤ), (5 : ℤ)), (2, 7)] (fun v => v) false)) ∧
    get_item (set_item (of_items [((1 : ℤ), (5 : ℤ)), (2, 7)] (fun v => v) false) 2 1) 2
      = some 1 :=
  ⟨⟨by decide, by decide⟩,
    (C5_set_upsert (of_items [((1 : ℤ), (5 : ℤ)), (2, 7)] (fun v => v) false) 2 1
      (by decide) (by decide)).1⟩

/-- C6 counterexample: `update` applied to the empty heap with the pairs
`{1: 3, 2: 2, 3: 1}` in two permuted orders (distinct keys) produces two
DIFFERENT heap arrays (`[(3,1),(1,3),(2,2)]` versus `[(3,1),(2,2),(1,3)]`),
refuting the claim that the final structure is order-independent. -/
theorem C6_update_order_counterexample :
    ([((1 : ℤ), (3 : ℤ)), (2, 2), (3, 1)].Perm [((3 : ℤ), (1 : ℤ)), (2, 2), (1, 3)]) ∧
    (([((1 : ℤ), (3 : ℤ)), (2, 2), (3, 1)].map Prod.fst).Nodup) ∧
    (update (of_items ([] : List (ℤ × ℤ)) (fun v => v) false)
        [((1 : ℤ), (3 : ℤ)), (2, 2), (3, 1)]).heap_items
      ≠ (update (of_items ([] : List (ℤ × ℤ)) (fun v => v) false)
          [((3 : ℤ), (1 : ℤ)), (2, 2), (1, 3)]).heap_items := by
  refine ⟨by decide, by decide, by decide⟩

/-- C6 (amended): `update` on a well-formed heap with two permuted batches of
pairwise-distinct-keyed pairs yields heaps with the same stored contents —
the same multiset of (key, value) pairs — though the array layout (and hence
the index) may differ. -/
theorem C6_update_commutes_on_contents {K V : Type}
    [DecidableEq K] [Inhabited K] [Inhabited V]
    (h : IndexedHeap K V) (ps1 ps2 : List (K × V)) (hwf : WF h)
    (hperm : ps1.Perm ps2) (hnd : (ps1.map Prod.fst).Nodup) :
    ((update h ps1).heap_items).Perm ((update h ps2).heap_items) :=
  update_items_perm h ps1 ps2 hwf hperm hnd

/-- C6 witness: the counterexample's own two batches, on the empty heap. -/
theorem C6_update_commutes_on_contents_witness :
    (WF (of_items ([] : List (ℤ × ℤ)) (fun v => v) false) ∧
      ([((1 : ℤ), (3 : ℤ)), (2, 2), (3, 1)].Perm [((3 : ℤ), (1 : ℤ)), (2, 2), (1, 3)]) ∧
      (([((1 : ℤ), (3 : ℤ)), (2, 2), (3, 1)].map Prod.fst).Nodup)) ∧
    ((update (of_items ([] : List (ℤ × ℤ)) (fun v => v) false)
        [((1 : ℤ), (3 : ℤ)), (2, 2), (3, 1)]).heap_items).Perm
      ((update (of_items ([] : List (ℤ × ℤ)) (fun v => v) false)
          [((3 : ℤ), (1 : ℤ)), (2, 2), (1, 3)]).heap_items) :=
  ⟨⟨by decide, by decide, by decide⟩,
    C6_update_commutes_on_contents (of_items ([] : List (ℤ × ℤ)) (fun v => v) false)
      [((1 : ℤ), (3 : ℤ)), (2, 2), (3, 1)] [((3 : ℤ), (1 : ℤ)), (2, 2), (1, 3)]
      (by decide) (by decide) (by decide)⟩

/-- C7: a freshly constructed empty heap has size 0, `pop_first` on it is not
an error but returns the `(None, None)` sentinel (embedded as `none`) leaving
the heap unchanged, and `contains` is false for every key. -/
theorem C7_empty_heap {K V : Type} [DecidableEq K] [Inhabited K] [Inhabited V]
    (keyf : V → ℤ) (rev : Bool) :
    size (of_items ([] : List (K × V)) keyf rev) = 0 ∧
    pop_first (of_items ([] : List (K × V)) keyf rev)
      = (none, of_items ([] : List (K × V)) keyf rev) ∧
    (∀ k : K, contains_key (of_items ([] : List (K × V)) keyf rev) k = false) := by
  have hof : of_items ([] : List (K × V)) keyf rev
      = { key := keyf, reverse := rev, heap_items := [],
          handle_to_position_mapping := [] } := by
    unfold of_items create_heap
    simp [build_mapping]
  rw [hof]
  exact ⟨rfl, rfl, fun _ => rfl⟩

/-- C8: on the spec §8 fixture `{1: 4, 2: 2, 3: 3, 4: 1, 5: 5}`, `remove(3)`
succeeds, leaves exactly the keys 1, 2, 4, 5 (size 4), preserves the
heap-order invariant in this instance, and the subsequent full drain pops
`(4,1), (2,2), (1,4), (5,5)`, emptying the heap. -/
theorem C8_delete_example :
    (del_item example_heap 3).isSome = true ∧
    contains_key ((del_item example_heap 3).getD default) 1 = true ∧
    contains_key ((del_item example_heap 3).getD default) 2 = true ∧
    contains_key ((del_item example_heap 3).getD default) 4 = true ∧
    contains_key ((del_item example_heap 3).getD default) 5 = true ∧
    contains_key ((del_item example_heap 3).getD default) 3 = false ∧
    size ((del_item example_heap 3).getD default) = 4 ∧
    HeapOrdered ((del_item example_heap 3).getD default) ∧
    (pop_first ((del_item example_heap 3).getD default)).1 = some (4, 1) ∧
    (pop_first (pop_first ((del_item example_heap 3).getD default)).2).1 = some (2, 2) ∧
    (pop_first (pop_first (pop_first
      ((del_item example_heap 3).getD default)).2).2).1 = some (1, 4) ∧
    (pop_first (pop_first (pop_first (pop_first
      ((del_item example_heap 3).getD default)).2).2).2).1 = some (5, 5) ∧
    size (pop_first (pop_first (pop_first (pop_first
      ((del_item example_heap 3).getD default)).2).2).2).2 = 0 := by
  decide

/-- C9: the `(None, None)` sentinel is indistinguishable from a stored
element keyed `None`; on the two-element min-heap whose root's external key
is `None`, `sort` yields no pairs at all — strictly fewer than the initial
size 2 — and leaves the heap non-empty (size 1, the root having been popped
and discarded by the generator's `k is not None` test). -/
theorem C9_sort_stops_at_none_key :
    size c9_heap = 2 ∧
    (sort c9_heap).1 = [] ∧
    (sort c9_heap).1.length < size c9_heap ∧
    size (sort c9_heap).2 = 1 := by
  decide

/-- C10: both sift recursions terminate within their structural bounds:
`_heapify_down` starting at `index` finishes within `length - index` nested
calls (any two fuels above that bound give the same result, and the
operation itself runs on such a fuel), and `_heapify_up` starting at
`item_index` finishes within `item_index` iterations, each moving strictly
closer to the root.  All public operations are compositions of these and
structurally terminating loops. -/
theorem C10_sift_termination {K V : Type} [DecidableEq K] [Inhabited K] [Inhabited V] :
    (∀ (h : IndexedHeap K V) (i fuel1 fuel2 : Nat),
      h.heap_items.length - i < fuel1 → h.heap_items.length - i < fuel2 →
      heapify_down_fuel fuel1 h i = heapify_down_fuel fuel2 h i) ∧
    (∀ (h : IndexedHeap K V) (j fuel1 fuel2 : Nat), j < fuel1 → j < fuel2 →
      heapify_up_fuel fuel1 h j = heapify_up_fuel fuel2 h j) ∧
    (∀ (h : IndexedHeap K V) (i : Nat),
      heapify_down h i = heapify_down_fuel (h.heap_items.length - i + 1) h i) ∧
    (∀ (h : IndexedHeap K V) (j : Nat),
      heapify_up h j = heapify_up_fuel (j + 1) h j) :=
  ⟨fun h i fuel1 fuel2 h1 h2 => heapify_down_fuel_sufficient fuel1 fuel2 h i h1 h2,
    fun h j fuel1 fuel2 h1 h2 => heapify_up_fuel_sufficient fuel1 fuel2 h j h1 h2,
    fun h i => heapify_down_eq_fuel h i _ (by omega),
    fun h j => rfl⟩

/-- C10 witness: two over-bound fuels agree on a concrete sift. -/
theorem C10_sift_termination_witness :
    (c1_heap.heap_items.length - 0 < 7 ∧ c1_heap.heap_items.length - 0 < 8) ∧
    heapify_down_fuel 7 c1_heap 0 = heapify_down_fuel 8 c1_heap 0 :=
  ⟨⟨by decide, by decide⟩,
    (C10_sift_termination (K := ℤ) (V := ℤ)).1 c1_heap 0 7 8 (by decide) (by decide)⟩

end PyHeap
